import Mathlib

/-!
# cus: terminal-to-socket relay (src/cus.c)

A shallow embedding of `main` of `src/cus.c`, from the `tcgetattr` call at
line 86 to the `return` at line 215, together with `restore_term`.

The operating system is an explicit environment: every system call made by
the program takes its return value (and, for `read`, the bytes delivered)
from a record supplied by the caller of the model.  The state of the outside
world that the claims speak about (bytes accepted on each descriptor, bytes
appended to the log stream, attributes of the terminal) is explicit state.

Bytes are natural numbers (the values of a C `char` seen as an octet are the
numbers below 256; the program only compares them with three constants).
Values of type `size_t` are natural numbers below `2 ^ 64`, and the
conversion of a signed result to `size_t` is written out with `%`.
-/

namespace Cus

/-! ## Constants -/

/-- An octet of one of the two relayed streams. -/
abbrev Byte := Nat

/-- The attributes of the terminal (`struct termios`), as an uninterpreted code. -/
abbrev Termios := Nat

/-- Line 48: `#define RSTATE_BEGIN 0`. -/
def RSTATE_BEGIN : Nat := 0

/-- Line 49: `#define RSTATE_CR 1`. -/
def RSTATE_CR : Nat := 1

/-- Line 50: `#define RSTATE_TILDE 2`. -/
def RSTATE_TILDE : Nat := 2

/-- The character constant written `\r` in the source (carriage return). -/
def CR : Byte := 13

/-- The character constant `~` of the source. -/
def TILDE : Byte := 126

/-- The character constant `.` of the source. -/
def DOT : Byte := 46

/-- Value of `EX_OK` in the system header sysexits.h. -/
def EX_OK : Nat := 0

/-- Value of `EX_DATAERR` in the system header sysexits.h. -/
def EX_DATAERR : Nat := 65

/-- Value of `EX_OSERR` in the system header sysexits.h. -/
def EX_OSERR : Nat := 71

/-- Value of `EX_IOERR` in the system header sysexits.h. -/
def EX_IOERR : Nat := 74

/-- Value of `POLLIN` in the system header poll.h. -/
def POLLIN : Nat := 1

/-- Value of `POLLHUP` in the system header poll.h. -/
def POLLHUP : Nat := 16

/-- Size of the two buffers `char buf[128]` (lines 150 and 195). -/
def BUFSZ : Nat := 128

/-- Value of `sizeof(sun.sun_path)` (sys/un.h of Linux). -/
def SUN_PATH_SIZE : Nat := 108

/-- Number of values of the type `size_t`. -/
def SIZE_MOD : Nat := 2 ^ 64

/-- Conversion of a signed integer to `size_t` (reduction modulo `2 ^ 64`). -/
def toSizeT (x : Int) : Nat := (x % (SIZE_MOD : Int)).toNat

/-- The bytes of the string printed at line 146, `stdin: HUP` and a newline. -/
def stdinHupMsg : List Byte := [115, 116, 100, 105, 110, 58, 32, 72, 85, 80, 10]

/-- The bytes of the string printed at line 191, `socket: HUP` and a newline. -/
def socketHupMsg : List Byte := [115, 111, 99, 107, 101, 116, 58, 32, 72, 85, 80, 10]

/-! ## Environment -/

/-- What a call `read(fd, buf, sizeof(buf))` does: it fails and returns `-1`,
or it stores `bs` at the start of `buf` and returns the length of `bs`
(the empty list is a read of zero bytes). -/
inductive RdRes where
  | fail : RdRes
  | data : List Byte → RdRes
deriving DecidableEq, Repr

/-- The value returned by the `read` call. -/
def RdRes.ret : RdRes → Int
  | .fail => -1
  | .data bs => (bs.length : Int)

/-- The bytes the `read` call stored in the buffer. -/
def RdRes.buf : RdRes → List Byte
  | .fail => []
  | .data bs => bs

/-- The environment of one iteration of the `for (;;)` loop: the result of
`poll` and of each call the iteration can make. -/
structure Wake where
  /-- The return value of `poll` (line 140). -/
  pollRet : Int
  /-- The value of `fds[0].revents` after `poll`. -/
  revents0 : Nat
  /-- The value of `fds[2].revents` after `poll`. -/
  revents2 : Nat
  /-- What `read(fds[0].fd, buf, sizeof(buf))` does (line 153). -/
  rdLocal : RdRes
  /-- The return value of the `k`-th call `write(fds[3].fd, p, 1)` of the iteration. -/
  wrRemote : Nat → Int
  /-- What `read(fds[2].fd, buf, sizeof(buf))` does (line 198). -/
  rdRemote : RdRes
  /-- The return value of `write(fds[1].fd, buf, r)` (line 207). -/
  wrLocal : Int

/-- The results the operating system can produce: `read` returns at most the
size of the buffer, a `write` returns `-1` or a count between zero and the
number of bytes it was given. -/
def Wake.wf (e : Wake) : Prop :=
  e.rdLocal.buf.length ≤ BUFSZ ∧ e.rdRemote.buf.length ≤ BUFSZ ∧
  (-1 ≤ e.wrLocal ∧ e.wrLocal ≤ (e.rdRemote.buf.length : Int)) ∧
  (∀ k, k < e.rdLocal.buf.length → -1 ≤ e.wrRemote k ∧ e.wrRemote k ≤ 1)

instance (e : Wake) : Decidable e.wf := by
  unfold Wake.wf; infer_instance

/-- Every `write` to the remote output issued for the bytes of the chunk
accepts its byte. -/
def Wake.remoteWritesOk (e : Wake) : Prop :=
  ∀ k, k < e.rdLocal.buf.length → e.wrRemote k = 1

instance (e : Wake) : Decidable e.remoteWritesOk := by
  unfold Wake.remoteWritesOk; infer_instance

/-- The `write` to the local output accepts the whole chunk. -/
def Wake.localWriteOk (e : Wake) : Prop :=
  e.wrLocal = (e.rdRemote.buf.length : Int)

instance (e : Wake) : Decidable e.localWriteOk := by
  unfold Wake.localWriteOk; infer_instance

/-! ## State -/

/-- The variable `rstate` and the observable effects of the relay loop. -/
structure World where
  /-- The variable `rstate` of `main`. -/
  rstate : Nat
  /-- The bytes accepted by the writes on `fds[3].fd` (remote output). -/
  remoteOut : List Byte
  /-- The bytes sent to the descriptor of `stdout` (local output): the writes
  on `fds[1].fd` and the two `printf` calls. -/
  localOut : List Byte
  /-- The bytes appended to `logfile` by `fwrite`. -/
  log : List Byte
  /-- History: the bytes delivered by the reads on `fds[0].fd` (local input). -/
  localIn : List Byte
  /-- History: the bytes delivered by the reads on `fds[2].fd` (remote input). -/
  remoteIn : List Byte
deriving DecidableEq, Repr

/-- The state at line 118, `rstate = RSTATE_BEGIN`, with nothing transferred yet. -/
def World.init : World := ⟨RSTATE_BEGIN, [], [], [], [], []⟩

/-- The ways the loop is left. -/
inductive Exit where
  /-- The `goto done` of line 182. -/
  | escape : Exit
  /-- The `goto done` of line 147. -/
  | stdinHup : Exit
  /-- The `break` of line 157. -/
  | stdinEof : Exit
  /-- The `goto done` of line 192. -/
  | socketHup : Exit
  /-- The `goto done` of line 202. -/
  | socketEof : Exit
  /-- A call of `err` with the given exit code. -/
  | err : Nat → Exit
deriving DecidableEq, Repr

/-- The exit status of the process: `done:` returns `EX_OK`, `err` exits with its code. -/
def Exit.status : Exit → Nat
  | .err c => c
  | _ => EX_OK

/-! ## The relay loop -/

/-- The bytes a call `write(fd, p, 1)` returning `ret` put on the descriptor. -/
def sent (b : Byte) (ret : Int) : List Byte := [b].take ret.toNat

/-- Lines 160-185: the body of the `for (p = buf; r > 0; r--, p++)` loop for the
byte `b = p[0]`; `ret` is what the `write` returns if it is called. The
boolean is true when the body executes `goto done`. -/
def stepByte (w : World) (b : Byte) (ret : Int) : World × Bool :=
  if w.rstate = RSTATE_BEGIN then
    let rs := if b = CR then RSTATE_CR else RSTATE_BEGIN
    ({ w with rstate := rs, remoteOut := w.remoteOut ++ sent b ret }, false)
  else if w.rstate = RSTATE_CR then
    let rs := if b = TILDE then RSTATE_TILDE
      else (if b = CR then RSTATE_CR else RSTATE_BEGIN)
    ({ w with rstate := rs, remoteOut := w.remoteOut ++ sent b ret }, false)
  else if w.rstate = RSTATE_TILDE then
    if b = DOT then (w, true)
    else ({ w with rstate := RSTATE_BEGIN, remoteOut := w.remoteOut ++ sent b ret }, false)
  else (w, false)

/-- Line 159: the `for` loop over the bytes of the chunk; `k` counts the
passes already made in this iteration. -/
def forBytes (wr : Nat → Int) : World → Nat → List Byte → World × Bool
  | w, _, [] => (w, false)
  | w, k, b :: bs =>
    match stepByte w b (wr k) with
    | (w1, true) => (w1, true)
    | (w1, false) => forBytes wr w1 (k + 1) bs

/-- Lines 149-187: the branch taken when `fds[0].revents & POLLIN`. -/
def localBranch (w : World) (e : Wake) : World × Option Exit :=
  if e.revents0 &&& POLLIN ≠ 0 then
    let r := toSizeT e.rdLocal.ret
    if r = toSizeT (-1) then (w, some (.err EX_IOERR))
    else
      let w0 := { w with localIn := w.localIn ++ e.rdLocal.buf }
      if r = 0 then (w0, some .stdinEof)
      else
        match forBytes e.wrRemote w0 0 (e.rdLocal.buf.take r) with
        | (w1, true) => (w1, some .escape)
        | (w1, false) => (w1, none)
  else (w, none)

/-- Lines 194-210: the branch taken when `fds[2].revents & POLLIN`. -/
def remoteBranch (logfile : Bool) (w : World) (e : Wake) : World × Option Exit :=
  if e.revents2 &&& POLLIN ≠ 0 then
    let r := toSizeT e.rdRemote.ret
    if r = toSizeT (-1) then (w, some (.err EX_IOERR))
    else
      let w0 := { w with remoteIn := w.remoteIn ++ e.rdRemote.buf }
      if r = 0 then (w0, some .socketEof)
      else
        let w1 := if logfile then { w0 with log := w0.log ++ e.rdRemote.buf.take r } else w0
        let tx := toSizeT e.wrLocal
        if tx = toSizeT (-1) then (w1, some (.err EX_IOERR))
        else ({ w1 with localOut := w1.localOut ++ (e.rdRemote.buf.take r).take tx }, none)
  else (w, none)

/-- Lines 189-210: the hangup test on `fds[2]` followed by the remote branch. -/
def socketPart (logfile : Bool) (w : World) (e : Wake) : World × Option Exit :=
  if e.revents2 &&& POLLHUP ≠ 0 then
    ({ w with localOut := w.localOut ++ socketHupMsg }, some .socketHup)
  else remoteBranch logfile w e

/-- Lines 140-210: one iteration of the `for (;;)` loop. -/
def iteration (logfile : Bool) (w : World) (e : Wake) : World × Option Exit :=
  if e.pollRet = -1 then (w, some (.err EX_OSERR))
  else if e.revents0 &&& POLLHUP ≠ 0 then
    ({ w with localOut := w.localOut ++ stdinHupMsg }, some .stdinHup)
  else
    match localBranch w e with
    | (w1, some x) => (w1, some x)
    | (w1, none) => socketPart logfile w1 e

/-- Lines 120-211: the `for (;;)` loop, run over the successive returns of
`poll`. The result is the state reached and the way the loop was left, or
`none` when the program is blocked in `poll` again after the last wake. -/
def relay (logfile : Bool) : World → List Wake → World × Option Exit
  | w, [] => (w, none)
  | w, e :: es =>
    match iteration logfile w e with
    | (w1, some x) => (w1, some x)
    | (w1, none) => relay logfile w1 es

/-! ## The terminal and the whole of `main` -/

/-- The results of the calls `main` makes before the loop, and of the
`tcsetattr` call of `restore_term`. -/
structure Startup where
  /-- The return value of `tcgetattr` (line 86). -/
  tcgetattrRet : Int
  /-- The function `cfmakeraw` (line 90). -/
  cfmakeraw : Termios → Termios
  /-- The return value of `tcsetattr` (line 91). -/
  tcsetattrRet : Int
  /-- The value of `strlen(sunpath)` (line 100). -/
  sunpathLen : Nat
  /-- The return value of `socket` (line 104). -/
  socketRet : Int
  /-- The return value of `connect` (line 108). -/
  connectRet : Int
  /-- The return value of `dup` (line 111). -/
  dupRet : Int
  /-- The return value of `tcsetattr` in `restore_term` (line 220). -/
  restoreRet : Int

/-- The process as seen from outside. -/
structure Proc where
  /-- The exit status, or `none` while the process is blocked in `poll`. -/
  status : Option Nat
  /-- The attributes in effect on the terminal. -/
  term : Termios
  /-- The variable `static struct termios oldterm`. -/
  oldterm : Termios
  /-- The state of the relay. -/
  world : World
deriving DecidableEq, Repr

/-- Lines 218-221: `restore_term` applies `oldterm`; the attributes change
when `tcsetattr` succeeds. -/
def restore_term (su : Startup) (term oldterm : Termios) : Termios :=
  if su.restoreRet = -1 then term else oldterm

/-- Process exit after line 93: `exit` (reached by `err`, `errx` or the return
from `main`) calls the function registered with `atexit`. -/
def exitWith (su : Startup) (code : Nat) (term oldterm : Termios) (w : World) : Proc :=
  ⟨some code, restore_term su term oldterm, oldterm, w⟩

/-- Lines 86-216 of `main`; `logfile` says whether `logfile != NULL`, `term0`
is the state of the terminal when `main` starts. -/
def main (su : Startup) (logfile : Bool) (term0 : Termios) (ws : List Wake) : Proc :=
  if su.tcgetattrRet = -1 then ⟨some EX_IOERR, term0, 0, World.init⟩
  else
    let t := term0
    let oldterm := t
    let t := su.cfmakeraw t
    if su.tcsetattrRet = -1 then ⟨some EX_IOERR, term0, oldterm, World.init⟩
    else
      let term := t
      if su.sunpathLen > SUN_PATH_SIZE then exitWith su EX_DATAERR term oldterm World.init
      else if su.socketRet = -1 then exitWith su EX_OSERR term oldterm World.init
      else if su.connectRet = -1 then exitWith su EX_IOERR term oldterm World.init
      else if su.dupRet = -1 then exitWith su EX_OSERR term oldterm World.init
      else
        match relay logfile World.init ws with
        | (w, none) => ⟨none, term, oldterm, w⟩
        | (w, some x) => exitWith su x.status term oldterm w

/-! ## Test environments -/

/-- A wake in which only local input is readable and delivers `bs`, every
write to the remote output accepting its byte. -/
def localWake (bs : List Byte) : Wake :=
  ⟨1, POLLIN, 0, .data bs, fun _ => 1, .data [], 0⟩

/-- A wake in which only remote input is readable and delivers `bs`, the write
to the local output accepting the whole chunk. -/
def remoteWake (bs : List Byte) : Wake :=
  ⟨1, 0, POLLIN, .data [], fun _ => 1, .data bs, (bs.length : Int)⟩

/-- A wake in which both inputs are readable. -/
def bothWake (ls rs : List Byte) : Wake :=
  ⟨2, POLLIN, POLLIN, .data ls, fun _ => 1, .data rs, (rs.length : Int)⟩

/-- A wake in which `revents` of the two polled descriptors are given, no data
being delivered by a read. -/
def eventWake (r0 r2 : Nat) : Wake :=
  ⟨1, r0, r2, .data [], fun _ => 1, .data [], 0⟩

/-- A start-up in which every call succeeds; `cfmakeraw` is some change of the
attributes. -/
def okStartup : Startup := ⟨0, fun t => t + 1, 0, 10, 3, 0, 4, 0⟩

/-- The session in which the successive reads of local input deliver the
chunks `cs`, the remote side being idle. -/
def feed (cs : List (List Byte)) : List Wake := cs.map localWake

/-- The chunks a read of local input can deliver before end of input: each
holds at least one byte and at most the size of the buffer. -/
def Chunks (cs : List (List Byte)) : Prop := ∀ c ∈ cs, c ≠ [] ∧ c.length ≤ BUFSZ

instance (cs : List (List Byte)) : Decidable (Chunks cs) := by
  unfold Chunks; infer_instance

/-- The byte loop over a whole stream, every write accepting its byte. -/
def scan (w : World) (bs : List Byte) : World × Bool := forBytes (fun _ => 1) w 0 bs

/-! ## The transition table of the specification -/

/-- The three values of the detector state, with the names the specification
gives them. -/
inductive DetState where
  | Begin : DetState
  | SawCR : DetState
  | SawTilde : DetState
deriving DecidableEq, Repr

/-- The value of `rstate` that stands for a state of the specification. -/
def DetState.code : DetState → Nat
  | .Begin => RSTATE_BEGIN
  | .SawCR => RSTATE_CR
  | .SawTilde => RSTATE_TILDE

/-- The transition table written in the specification, row by row: the
result is `some s` for a row whose action is to forward the byte and go to
`s`, and `none` for the row that terminates the session. -/
def specTable : DetState → Byte → Option DetState
  | .Begin, b => if b = CR then some .SawCR else some .Begin
  | .SawCR, b => if b = TILDE then some .SawTilde
      else if b = CR then some .SawCR else some .Begin
  | .SawTilde, b => if b = DOT then none else some .Begin

/-- The session in which the successive reads of remote input deliver the
chunks `rs`, each written whole to the local output, local input being idle. -/
def remoteFeed (rs : List (List Byte)) : List Wake := rs.map remoteWake

/-- The line the program prints on its standard output when the loop is left
on a hangup (lines 146 and 191). -/
def notice : Option Exit → List Byte
  | some .stdinHup => stdinHupMsg
  | some .socketHup => socketHupMsg
  | _ => []

/-- Two environments of an iteration that agree on `poll` and on local input,
and whose reads of remote input are of the same kind (failure, zero bytes, or
some bytes) with any bytes, the write to the local output failing in both or
in neither. -/
def SameExceptRemoteBytes (e e1 : Wake) : Prop :=
  e.pollRet = e1.pollRet ∧ e.revents0 = e1.revents0 ∧ e.revents2 = e1.revents2 ∧
  e.rdLocal = e1.rdLocal ∧ (e.rdRemote = .fail ↔ e1.rdRemote = .fail) ∧
  (e.rdRemote.buf = [] ↔ e1.rdRemote.buf = []) ∧ (e.wrLocal = -1 ↔ e1.wrLocal = -1)

instance (e e1 : Wake) : Decidable (SameExceptRemoteBytes e e1) := by
  unfold SameExceptRemoteBytes; infer_instance

/-! ## Invariants of the loop -/

/-- What the value of `rstate` says about the bytes already forwarded. -/
def Track (w : World) : Prop :=
  w.rstate ≤ 2 ∧ (w.rstate = RSTATE_CR → ∃ t, w.remoteOut = t ++ [CR]) ∧
  (w.rstate = RSTATE_TILDE → ∃ t, w.remoteOut = t ++ [CR, TILDE])

/-- Relation between a state `w` and a later state with its way out: the
bytes read from local input since `w` have all been forwarded, or, when the
loop was left by the escape, those before the `.` found after `CR ~`. -/
def LocalRel (w : World) (p : World × Option Exit) : Prop :=
  Track p.1 ∧
  (p.2 = some .escape → ∃ pre rest t, p.1.localIn = w.localIn ++ (pre ++ DOT :: rest) ∧
    p.1.remoteOut = w.remoteOut ++ pre ∧ p.1.remoteOut = t ++ [CR, TILDE]) ∧
  (p.2 ≠ some .escape → ∃ bs, p.1.localIn = w.localIn ++ bs ∧
    p.1.remoteOut = w.remoteOut ++ bs)

/-- Relation between a state `w` and a later state with its way out: the
bytes `bs` read from remote input since `w` have been appended to the log
(when there is one); the local output has received the part `s` of them that
its writes accepted, all of them under the condition `ok`, followed by the
hangup notice. -/
def RemoteRel (ok : Prop) (lf : Bool) (w : World) (p : World × Option Exit) : Prop :=
  ∃ bs s, p.1.remoteIn = w.remoteIn ++ bs ∧ p.1.log = w.log ++ (if lf then bs else []) ∧
    p.1.localOut = w.localOut ++ s ++ notice p.2 ∧ List.Sublist s bs ∧ (ok → s = bs)

/-- The byte loop run on its own from the detector state `rs`, every write
accepting its byte: the state reached holds the final `rstate` and, as remote
output, the bytes the loop forwarded; the boolean says whether the loop
jumped to `done`. -/
def probe (rs : Nat) (bs : List Byte) : World × Bool :=
  scan { World.init with rstate := rs } bs

/-- Relation between a state `w` and a later state with its way out: `bs` are
the bytes read from local input since `w`; the loop was left by the escape
exactly when the byte loop run on `bs` jumps to `done`; the remote output has
received the part `s` of the forwarded bytes that its writes accepted, all of
them under the condition `ok`. -/
def DetectRel (ok : Prop) (w : World) (p : World × Option Exit) : Prop :=
  ∃ bs s, p.1.localIn = w.localIn ++ bs ∧ p.1.remoteOut = w.remoteOut ++ s ∧
    List.Sublist s (probe w.rstate bs).1.remoteOut ∧
    (ok → s = (probe w.rstate bs).1.remoteOut) ∧
    ((probe w.rstate bs).2 = true ↔ p.2 = some .escape) ∧
    p.1.rstate = (probe w.rstate bs).1.rstate

/-! ## Arithmetic of `size_t` -/

theorem toSizeT_neg_one : toSizeT (-1) = 2 ^ 64 - 1 := by decide

theorem toSizeT_natCast (n : Nat) (h : n < 2 ^ 64 - 1) :
    toSizeT (n : Int) = n ∧ toSizeT (n : Int) ≠ toSizeT (-1) := by
  have h1 : toSizeT (n : Int) = n := by
    unfold toSizeT SIZE_MOD
    omega
  rw [toSizeT_neg_one, h1]
  omega

theorem bufsz_lt : BUFSZ < 2 ^ 64 - 1 := by decide

/-- A read that does not fail and respects the buffer size is seen as such by
the test `r == -1`, and `r` is the number of bytes delivered. -/
theorem rd_data (bs : List Byte) (h : bs.length ≤ BUFSZ) :
    toSizeT (RdRes.data bs).ret = bs.length ∧ bs.length ≠ toSizeT (-1) := by
  have := bufsz_lt
  have h1 := toSizeT_natCast bs.length (by omega)
  exact ⟨h1.1, by rw [← h1.1]; exact h1.2⟩

theorem rd_fail : toSizeT RdRes.fail.ret = toSizeT (-1) := rfl

/-! ## The byte loop -/

theorem track_init : Track World.init :=
  ⟨by decide, fun h => absurd h (by decide), fun h => absurd h (by decide)⟩

theorem sent_one (b : Byte) : sent b 1 = [b] := rfl

theorem stepByte_frame (w : World) (b : Byte) (ret : Int) :
    (stepByte w b ret).1.localOut = w.localOut ∧ (stepByte w b ret).1.log = w.log ∧
    (stepByte w b ret).1.localIn = w.localIn ∧ (stepByte w b ret).1.remoteIn = w.remoteIn := by
  unfold stepByte
  split_ifs <;> simp

theorem stepByte_done (w : World) (b : Byte) (ret : Int) (h : (stepByte w b ret).2 = true) :
    b = DOT ∧ (stepByte w b ret).1 = w ∧ w.rstate = RSTATE_TILDE := by
  unfold stepByte at h ⊢
  split_ifs at h ⊢
  simp_all

theorem track_begin (w : World) (h : w.rstate = RSTATE_BEGIN) : Track w := by
  refine ⟨?_, ?_, ?_⟩
  · rw [h]; decide
  · intro h1; rw [h] at h1; exact absurd h1 (by decide)
  · intro h1; rw [h] at h1; exact absurd h1 (by decide)

theorem track_cr (w : World) (h : w.rstate = RSTATE_CR) (t : List Byte)
    (ht : w.remoteOut = t ++ [CR]) : Track w := by
  refine ⟨?_, ?_, ?_⟩
  · rw [h]; decide
  · intro _; exact ⟨t, ht⟩
  · intro h1; rw [h] at h1; exact absurd h1 (by decide)

theorem track_tilde (w : World) (h : w.rstate = RSTATE_TILDE) (t : List Byte)
    (ht : w.remoteOut = t ++ [CR, TILDE]) : Track w := by
  refine ⟨?_, ?_, ?_⟩
  · rw [h]; decide
  · intro h1; rw [h] at h1; exact absurd h1 (by decide)
  · intro _; exact ⟨t, ht⟩

theorem track_cases (w : World) (hT : Track w) :
    w.rstate = RSTATE_BEGIN ∨ w.rstate = RSTATE_CR ∨ w.rstate = RSTATE_TILDE := by
  have := hT.1
  unfold RSTATE_BEGIN RSTATE_CR RSTATE_TILDE
  omega

theorem stepByte_go (w : World) (b : Byte) (hT : Track w)
    (h : (stepByte w b 1).2 = false) :
    Track (stepByte w b 1).1 ∧ (stepByte w b 1).1.remoteOut = w.remoteOut ++ [b] := by
  rcases track_cases w hT with h0 | h1 | h2
  · by_cases hb : b = CR
    · have e : stepByte w b 1 =
          ({ w with rstate := RSTATE_CR, remoteOut := w.remoteOut ++ [b] }, false) := by
        simp [stepByte, h0, hb, sent_one]
      rw [e]
      exact ⟨track_cr _ rfl w.remoteOut (by simp [hb]), rfl⟩
    · have e : stepByte w b 1 =
          ({ w with rstate := RSTATE_BEGIN, remoteOut := w.remoteOut ++ [b] }, false) := by
        simp [stepByte, h0, hb, sent_one]
      rw [e]
      exact ⟨track_begin _ rfl, rfl⟩
  · obtain ⟨t, ht⟩ := hT.2.1 h1
    have n0 : RSTATE_CR ≠ RSTATE_BEGIN := by decide
    by_cases hb : b = TILDE
    · have e : stepByte w b 1 =
          ({ w with rstate := RSTATE_TILDE, remoteOut := w.remoteOut ++ [b] }, false) := by
        simp [stepByte, h1, n0, hb, sent_one]
      rw [e]
      exact ⟨track_tilde _ rfl t (by simp [hb, ht]), rfl⟩
    · by_cases hc : b = CR
      · have e : stepByte w b 1 =
            ({ w with rstate := RSTATE_CR, remoteOut := w.remoteOut ++ [b] }, false) := by
          have nct : CR ≠ TILDE := by decide
          simp [stepByte, h1, n0, hc, nct, sent_one]
        rw [e]
        exact ⟨track_cr _ rfl w.remoteOut (by simp [hc]), rfl⟩
      · have e : stepByte w b 1 =
            ({ w with rstate := RSTATE_BEGIN, remoteOut := w.remoteOut ++ [b] }, false) := by
          simp [stepByte, h1, n0, hb, hc, sent_one]
        rw [e]
        exact ⟨track_begin _ rfl, rfl⟩
  · have n0 : RSTATE_TILDE ≠ RSTATE_BEGIN := by decide
    have n1 : RSTATE_TILDE ≠ RSTATE_CR := by decide
    by_cases hb : b = DOT
    · have e : stepByte w b 1 = (w, true) := by
        simp [stepByte, h2, n0, n1, hb]
      rw [e] at h
      simp at h
    · have e : stepByte w b 1 =
          ({ w with rstate := RSTATE_BEGIN, remoteOut := w.remoteOut ++ [b] }, false) := by
        simp [stepByte, h2, n0, n1, hb, sent_one]
      rw [e]
      exact ⟨track_begin _ rfl, rfl⟩

theorem forBytes_frame (wr : Nat → Int) (bs : List Byte) : ∀ (w : World) (k : Nat),
    (forBytes wr w k bs).1.localOut = w.localOut ∧ (forBytes wr w k bs).1.log = w.log ∧
    (forBytes wr w k bs).1.localIn = w.localIn ∧ (forBytes wr w k bs).1.remoteIn = w.remoteIn := by
  induction bs with
  | nil => intro w k; simp [forBytes]
  | cons b bs ih =>
    intro w k
    have hf := stepByte_frame w b (wr k)
    rw [forBytes]
    rcases hs : stepByte w b (wr k) with ⟨w1, d⟩
    rw [hs] at hf
    cases d
    · simp only
      have := ih w1 (k + 1)
      simp only at hf
      rw [hf.1, hf.2.1, hf.2.2.1, hf.2.2.2] at this
      exact this
    · exact hf

/-- The byte loop when every write accepts its byte: either the whole chunk is
forwarded, or the loop jumps to `done` at a `.` that follows `CR ~`, having
forwarded the bytes before it. -/
theorem forBytes_ok (wr : Nat → Int) (bs : List Byte) : ∀ (w : World) (k : Nat),
    (∀ j, j < bs.length → wr (k + j) = 1) → Track w →
    Track (forBytes wr w k bs).1 ∧
    ((forBytes wr w k bs).2 = false → (forBytes wr w k bs).1.remoteOut = w.remoteOut ++ bs) ∧
    ((forBytes wr w k bs).2 = true → ∃ pre rest t, bs = pre ++ DOT :: rest ∧
      (forBytes wr w k bs).1.remoteOut = w.remoteOut ++ pre ∧
      (forBytes wr w k bs).1.remoteOut = t ++ [CR, TILDE]) := by
  induction bs with
  | nil => intro w k _ hT; simp [forBytes, hT]
  | cons b bs ih =>
    intro w k hwr hT
    have hk : wr k = 1 := by simpa using hwr 0 (by simp)
    rw [forBytes, hk]
    rcases hs : stepByte w b 1 with ⟨w1, d⟩
    cases d
    · have hgo := stepByte_go w b hT (by rw [hs])
      rw [hs] at hgo
      simp only at hgo ⊢
      have := ih w1 (k + 1) (fun j hj => by
        have := hwr (j + 1) (by simpa using hj)
        rwa [show k + 1 + j = k + (j + 1) by omega]) hgo.1
      refine ⟨this.1, fun h => ?_, fun h => ?_⟩
      · rw [this.2.1 h, hgo.2]; simp
      · obtain ⟨pre, rest, t, h1, h2, h3⟩ := this.2.2 h
        exact ⟨b :: pre, rest, t, by simp [h1], by rw [h2, hgo.2]; simp, h3⟩
    · have hd := stepByte_done w b 1 (by rw [hs])
      rw [hs] at hd
      simp only at hd ⊢
      obtain ⟨hb, hw, hr⟩ := hd
      subst hw
      refine ⟨hT, fun h => by simp at h, fun _ => ?_⟩
      obtain ⟨t, ht⟩ := hT.2.2 hr
      exact ⟨[], bs, t, by simp [hb], by simp, ht⟩

/-! ## The two branches of an iteration -/

theorem localBranch_idle (w : World) (e : Wake) (h : e.revents0 &&& POLLIN = 0) :
    localBranch w e = (w, none) := by
  simp [localBranch, h]

theorem localBranch_fail (w : World) (e : Wake) (h : e.revents0 &&& POLLIN ≠ 0)
    (hr : e.rdLocal = .fail) : localBranch w e = (w, some (.err EX_IOERR)) := by
  simp [localBranch, h, hr, rd_fail]

theorem localBranch_eof (w : World) (e : Wake) (h : e.revents0 &&& POLLIN ≠ 0)
    (hr : e.rdLocal = .data []) : localBranch w e = (w, some .stdinEof) := by
  have h1 := rd_data [] (by decide)
  simp only [List.length_nil] at h1
  simp [localBranch, h, hr, h1.1, h1.2, RdRes.buf]

theorem localBranch_data (w : World) (e : Wake) (bs : List Byte)
    (h : e.revents0 &&& POLLIN ≠ 0) (hr : e.rdLocal = .data bs) (hne : bs ≠ [])
    (hlen : bs.length ≤ BUFSZ) :
    localBranch w e =
      ((forBytes e.wrRemote { w with localIn := w.localIn ++ bs } 0 bs).1,
        if (forBytes e.wrRemote { w with localIn := w.localIn ++ bs } 0 bs).2 = true
        then some .escape else none) := by
  have h1 := rd_data bs hlen
  have h0 : bs.length ≠ 0 := by simpa using hne
  simp only [localBranch, h, hr, h1.1, h1.2, RdRes.buf, h0, List.take_length, if_true,
    if_false, ne_eq, not_false_eq_true]
  rcases forBytes e.wrRemote { w with localIn := w.localIn ++ bs } 0 bs with ⟨w1, d⟩
  cases d <;> simp

theorem remoteBranch_idle (lf : Bool) (w : World) (e : Wake) (h : e.revents2 &&& POLLIN = 0) :
    remoteBranch lf w e = (w, none) := by
  simp [remoteBranch, h]

theorem remoteBranch_fail (lf : Bool) (w : World) (e : Wake) (h : e.revents2 &&& POLLIN ≠ 0)
    (hr : e.rdRemote = .fail) : remoteBranch lf w e = (w, some (.err EX_IOERR)) := by
  simp [remoteBranch, h, hr, rd_fail]

theorem remoteBranch_eof (lf : Bool) (w : World) (e : Wake) (h : e.revents2 &&& POLLIN ≠ 0)
    (hr : e.rdRemote = .data []) : remoteBranch lf w e = (w, some .socketEof) := by
  have h1 := rd_data [] (by decide)
  simp only [List.length_nil] at h1
  simp [remoteBranch, h, hr, h1.1, h1.2, RdRes.buf]

theorem remoteBranch_data (lf : Bool) (w : World) (e : Wake) (bs : List Byte)
    (h : e.revents2 &&& POLLIN ≠ 0) (hr : e.rdRemote = .data bs) (hne : bs ≠ [])
    (hlen : bs.length ≤ BUFSZ) :
    remoteBranch lf w e =
      if toSizeT e.wrLocal = toSizeT (-1) then
        ({ w with remoteIn := w.remoteIn ++ bs, log := w.log ++ (if lf then bs else []) },
          some (.err EX_IOERR))
      else
        ({ w with remoteIn := w.remoteIn ++ bs, log := w.log ++ (if lf then bs else []),
                  localOut := w.localOut ++ bs.take (toSizeT e.wrLocal) }, none) := by
  have h1 := rd_data bs hlen
  have h0 : bs.length ≠ 0 := by simpa using hne
  simp only [remoteBranch, h, hr, h1.1, h1.2, RdRes.buf, h0, List.take_length, if_true,
    if_false, ne_eq, not_false_eq_true]
  cases lf <;> simp

theorem rdRes_cases (r : RdRes) :
    r = .fail ∨ r = .data [] ∨ ∃ bs, bs ≠ [] ∧ r = .data bs := by
  cases r with
  | fail => exact Or.inl rfl
  | data bs =>
    cases bs with
    | nil => exact Or.inr (Or.inl rfl)
    | cons b bs => exact Or.inr (Or.inr ⟨b :: bs, by simp, rfl⟩)

theorem localBranch_frame (w : World) (e : Wake) :
    (localBranch w e).1.localOut = w.localOut ∧ (localBranch w e).1.log = w.log ∧
    (localBranch w e).1.remoteIn = w.remoteIn := by
  simp only [localBranch]
  split_ifs
  · simp
  · simp
  · have hf := forBytes_frame e.wrRemote (e.rdLocal.buf.take (toSizeT e.rdLocal.ret))
      { w with localIn := w.localIn ++ e.rdLocal.buf } 0
    rcases hfb : forBytes e.wrRemote { w with localIn := w.localIn ++ e.rdLocal.buf } 0
      (e.rdLocal.buf.take (toSizeT e.rdLocal.ret)) with ⟨w1, d⟩
    rw [hfb] at hf
    cases d <;> exact ⟨hf.1, hf.2.1, hf.2.2.2⟩
  · simp

theorem remoteBranch_frame (lf : Bool) (w : World) (e : Wake) :
    (remoteBranch lf w e).1.rstate = w.rstate ∧
    (remoteBranch lf w e).1.remoteOut = w.remoteOut ∧
    (remoteBranch lf w e).1.localIn = w.localIn := by
  simp only [remoteBranch]
  cases lf <;> split_ifs <;> simp

theorem remoteBranch_noescape (lf : Bool) (w : World) (e : Wake) :
    (remoteBranch lf w e).2 ≠ some .escape := by
  simp only [remoteBranch]
  split_ifs <;> simp

theorem socketPart_frame (lf : Bool) (w : World) (e : Wake) :
    (socketPart lf w e).1.rstate = w.rstate ∧
    (socketPart lf w e).1.remoteOut = w.remoteOut ∧
    (socketPart lf w e).1.localIn = w.localIn := by
  unfold socketPart
  split_ifs
  · simp
  · exact remoteBranch_frame lf w e

theorem socketPart_noescape (lf : Bool) (w : World) (e : Wake) :
    (socketPart lf w e).2 ≠ some .escape := by
  unfold socketPart
  split_ifs
  · simp
  · exact remoteBranch_noescape lf w e

/-! ## The local-to-remote direction -/

theorem localRel_same (w : World) (x : Option Exit) (hT : Track w) (hx : x ≠ some .escape) :
    LocalRel w (w, x) :=
  ⟨hT, fun h => absurd h hx, fun _ => ⟨[], by simp, by simp⟩⟩

theorem localRel_trans (w w1 : World) (p : World × Option Exit)
    (h1 : LocalRel w (w1, none)) (h2 : LocalRel w1 p) : LocalRel w p := by
  obtain ⟨bs, hl, hr⟩ := h1.2.2 (by simp)
  simp only at hl hr
  refine ⟨h2.1, fun h => ?_, fun h => ?_⟩
  · obtain ⟨pre, rest, t, a, b, c⟩ := h2.2.1 h
    exact ⟨bs ++ pre, rest, t, by rw [a, hl]; simp, by rw [b, hr]; simp, c⟩
  · obtain ⟨cs, a, b⟩ := h2.2.2 h
    exact ⟨bs ++ cs, by rw [a, hl]; simp, by rw [b, hr]; simp⟩

theorem localBranch_rel (w : World) (e : Wake) (hwf : e.wf) (hok : e.remoteWritesOk)
    (hT : Track w) : LocalRel w (localBranch w e) := by
  by_cases hp : e.revents0 &&& POLLIN = 0
  · rw [localBranch_idle w e hp]
    exact localRel_same w none hT (by simp)
  · rcases rdRes_cases e.rdLocal with hr | hr | ⟨bs, hne, hr⟩
    · rw [localBranch_fail w e hp hr]
      exact localRel_same w _ hT (by simp)
    · rw [localBranch_eof w e hp hr]
      exact localRel_same w _ hT (by simp)
    · have hlen : bs.length ≤ BUFSZ := by
        have := hwf.1
        rwa [hr] at this
      rw [localBranch_data w e bs hp hr hne hlen]
      have hw : ∀ j, j < bs.length → e.wrRemote (0 + j) = 1 := by
        intro j hj
        have := hok j (by rw [hr]; exact hj)
        simpa using this
      have hT0 : Track { w with localIn := w.localIn ++ bs } := hT
      have hfr := forBytes_frame e.wrRemote bs { w with localIn := w.localIn ++ bs } 0
      have hfo := forBytes_ok e.wrRemote bs { w with localIn := w.localIn ++ bs } 0 hw hT0
      rcases hfb : forBytes e.wrRemote { w with localIn := w.localIn ++ bs } 0 bs with ⟨w1, d⟩
      rw [hfb] at hfr hfo
      simp only at hfr hfo
      cases d
      · refine ⟨hfo.1, fun h => by simp at h, fun _ => ⟨bs, hfr.2.2.1, hfo.2.1 rfl⟩⟩
      · obtain ⟨pre, rest, t, a, b, c⟩ := hfo.2.2 rfl
        refine ⟨hfo.1, fun _ => ⟨pre, rest, t, ?_, b, c⟩, fun h => by simp at h⟩
        simp only
        rw [hfr.2.2.1, a]

theorem iteration_rel (lf : Bool) (w : World) (e : Wake) (hwf : e.wf)
    (hok : e.remoteWritesOk) (hT : Track w) : LocalRel w (iteration lf w e) := by
  unfold iteration
  split_ifs
  · exact localRel_same w _ hT (by simp)
  · exact ⟨hT, fun h => by simp at h, fun _ => ⟨[], by simp, by simp⟩⟩
  · have hl := localBranch_rel w e hwf hok hT
    rcases hlb : localBranch w e with ⟨w1, x⟩
    rw [hlb] at hl
    cases x with
    | some x => exact hl
    | none =>
      simp only
      have hf := socketPart_frame lf w1 e
      have hn := socketPart_noescape lf w1 e
      obtain ⟨bs, a, b⟩ := hl.2.2 (by simp)
      simp only at a b
      refine ⟨?_, fun h => absurd h hn, fun _ => ⟨bs, by rw [hf.2.2, a], by rw [hf.2.1, b]⟩⟩
      obtain ⟨t1, t2, t3⟩ := hl.1
      exact ⟨by rw [hf.1]; exact t1, by rw [hf.1, hf.2.1]; exact t2,
        by rw [hf.1, hf.2.1]; exact t3⟩

theorem relay_rel (lf : Bool) (ws : List Wake) : ∀ (w : World),
    (∀ e ∈ ws, e.wf) → (∀ e ∈ ws, e.remoteWritesOk) → Track w →
    LocalRel w (relay lf w ws) := by
  induction ws with
  | nil => intro w _ _ hT; exact localRel_same w none hT (by simp)
  | cons e es ih =>
    intro w hwf hok hT
    have hi := iteration_rel lf w e (hwf e (by simp)) (hok e (by simp)) hT
    rw [relay]
    rcases hit : iteration lf w e with ⟨w1, x⟩
    rw [hit] at hi
    cases x with
    | some x => exact hi
    | none =>
      simp only
      exact localRel_trans w w1 _ hi
        (ih w1 (fun a ha => hwf a (by simp [ha])) (fun a ha => hok a (by simp [ha])) hi.1)

/-! ## Local input delivered in chunks -/

theorem forBytes_const (c : Int) (bs : List Byte) : ∀ (w : World) (k : Nat),
    forBytes (fun _ => c) w k bs = forBytes (fun _ => c) w 0 bs := by
  induction bs with
  | nil => intro w k; simp [forBytes]
  | cons b bs ih =>
    intro w k
    rw [forBytes, forBytes]
    rcases stepByte w b c with ⟨w1, d⟩
    cases d
    · simp only
      rw [ih w1 (k + 1), ih w1 (0 + 1)]
    · rfl

theorem scan_nil (w : World) : scan w [] = (w, false) := rfl

theorem scan_cons (w : World) (b : Byte) (bs : List Byte) :
    scan w (b :: bs) =
      if (stepByte w b 1).2 = true then ((stepByte w b 1).1, true)
      else scan (stepByte w b 1).1 bs := by
  unfold scan
  rw [forBytes]
  rcases stepByte w b 1 with ⟨w1, d⟩
  cases d
  · simp only
    rw [forBytes_const]
    simp
  · simp

theorem scan_append (as bs : List Byte) : ∀ (w : World),
    scan w (as ++ bs) = if (scan w as).2 = true then scan w as else scan (scan w as).1 bs := by
  induction as with
  | nil => intro w; simp [scan_nil]
  | cons a as ih =>
    intro w
    rw [List.cons_append, scan_cons, scan_cons]
    by_cases h : (stepByte w a 1).2 = true
    · simp [h]
    · simp only [h, if_false]
      exact ih _

theorem scan_localIn (bs : List Byte) (w : World) (l : List Byte) :
    scan { w with localIn := l } bs = ({ (scan w bs).1 with localIn := l }, (scan w bs).2) := by
  induction bs generalizing w with
  | nil => simp [scan_nil]
  | cons b bs ih =>
    rw [scan_cons, scan_cons]
    have e : stepByte { w with localIn := l } b 1 =
        ({ (stepByte w b 1).1 with localIn := l }, (stepByte w b 1).2) := by
      simp only [stepByte]
      split_ifs <;> rfl
    rw [e]
    by_cases h : (stepByte w b 1).2 = true
    · simp [h]
    · simp only [h, if_false]
      exact ih _

theorem iteration_localWake (lf : Bool) (w : World) (c : List Byte) :
    iteration lf w (localWake c) = localBranch w (localWake c) := by
  have h1 : (localWake c).pollRet ≠ -1 := by show (1 : Int) ≠ -1; decide
  have h2 : (localWake c).revents0 &&& POLLHUP = 0 := by show POLLIN &&& POLLHUP = 0; decide
  have h3 : (localWake c).revents2 &&& POLLHUP = 0 := by show 0 &&& POLLHUP = 0; decide
  have h4 : (localWake c).revents2 &&& POLLIN = 0 := by show 0 &&& POLLIN = 0; decide
  unfold iteration
  simp only [h1, h2, if_false, ne_eq, not_true_eq_false]
  rcases localBranch w (localWake c) with ⟨w1, x⟩
  cases x with
  | some x => rfl
  | none =>
    simp only [socketPart, h3, ne_eq, not_true_eq_false, if_false]
    exact remoteBranch_idle lf w1 _ h4

theorem localBranch_localWake (w : World) (c : List Byte) (hne : c ≠ [])
    (hlen : c.length ≤ BUFSZ) :
    localBranch w (localWake c) =
      ({ (scan w c).1 with localIn := w.localIn ++ c },
        if (scan w c).2 = true then some .escape else none) := by
  have hp : (localWake c).revents0 &&& POLLIN ≠ 0 := by show POLLIN &&& POLLIN ≠ 0; decide
  rw [localBranch_data w (localWake c) c hp rfl hne hlen]
  have : (localWake c).wrRemote = fun _ => 1 := rfl
  rw [this]
  have := scan_localIn c w (w.localIn ++ c)
  unfold scan at this ⊢
  rw [this]

/-- Reading local input chunk by chunk runs the byte loop over the
concatenation of the chunks. -/
theorem feed_scan (lf : Bool) (cs : List (List Byte)) : ∀ (w : World), Chunks cs →
    (relay lf w (feed cs)).1.rstate = (scan w cs.flatten).1.rstate ∧
    (relay lf w (feed cs)).1.remoteOut = (scan w cs.flatten).1.remoteOut ∧
    (relay lf w (feed cs)).2 = (if (scan w cs.flatten).2 = true then some .escape else none) ∧
    ((scan w cs.flatten).2 = false → (relay lf w (feed cs)).1.localIn = w.localIn ++ cs.flatten) := by
  induction cs with
  | nil => intro w _; simp [feed, relay, scan_nil]
  | cons c cs ih =>
    intro w hcs
    have hc := hcs c (by simp)
    have hcs1 : Chunks cs := fun a ha => hcs a (by simp [ha])
    simp only [feed, List.map_cons, List.flatten_cons]
    rw [relay, iteration_localWake, localBranch_localWake w c hc.1 hc.2]
    have hsa := scan_append c cs.flatten w
    rcases hsc : scan w c with ⟨w1, d⟩
    rw [hsc] at hsa
    cases d
    · have := ih { w1 with localIn := w.localIn ++ c } hcs1
      rw [scan_localIn] at this
      simp only [feed] at this
      simp only [Bool.false_eq_true, if_false] at hsa ⊢
      simp only [hsa]
      refine ⟨this.1, this.2.1, this.2.2.1, fun h2 => ?_⟩
      rw [this.2.2.2 h2]
      simp
    · simp only [if_true] at hsa ⊢
      simp [hsa]

/-! ## The detector on the bytes read, whatever the writes return -/

theorem sent_sublist (b : Byte) (ret : Int) : List.Sublist (sent b ret) [b] :=
  List.take_sublist _ _

theorem stepByte_probe (w : World) (b : Byte) (ret : Int) :
    (stepByte w b ret).2 = (stepByte { World.init with rstate := w.rstate } b 1).2 ∧
    (stepByte w b ret).1.rstate =
      (stepByte { World.init with rstate := w.rstate } b 1).1.rstate ∧
    ∃ s, (stepByte w b ret).1.remoteOut = w.remoteOut ++ s ∧
      List.Sublist s (stepByte { World.init with rstate := w.rstate } b 1).1.remoteOut ∧
      (ret = 1 → s = (stepByte { World.init with rstate := w.rstate } b 1).1.remoteOut) := by
  have hs : List.Sublist (sent b ret) ([] ++ sent b 1) := sent_sublist b ret
  have he : ret = 1 → sent b ret = [] ++ sent b 1 := fun h => by rw [h]; rfl
  simp only [stepByte]
  split_ifs
  all_goals first
    | exact ⟨rfl, rfl, sent b ret, rfl, hs, he⟩
    | exact ⟨rfl, rfl, [], by simp, List.Sublist.refl _, fun _ => rfl⟩

theorem probe_nil (rs : Nat) : probe rs [] = ({ World.init with rstate := rs }, false) := rfl

theorem probe_cons (rs : Nat) (b : Byte) (bs : List Byte) :
    probe rs (b :: bs) =
      if (stepByte { World.init with rstate := rs } b 1).2 = true
      then ((stepByte { World.init with rstate := rs } b 1).1, true)
      else scan (stepByte { World.init with rstate := rs } b 1).1 bs :=
  scan_cons _ b bs

theorem scan_probe (bs : List Byte) : ∀ (v : World),
    (scan v bs).2 = (probe v.rstate bs).2 ∧
    (scan v bs).1.rstate = (probe v.rstate bs).1.rstate ∧
    (scan v bs).1.remoteOut = v.remoteOut ++ (probe v.rstate bs).1.remoteOut := by
  induction bs with
  | nil => intro v; simp [scan_nil, probe_nil, World.init]
  | cons b bs ih =>
    intro v
    rw [scan_cons, probe_cons]
    rcases h1 : stepByte v b 1 with ⟨v1, d⟩
    rcases h2 : stepByte { World.init with rstate := v.rstate } b 1 with ⟨c1, d1⟩
    have hsp := stepByte_probe v b 1
    rw [h1, h2] at hsp
    obtain ⟨hf, hr, s, ho, _, hs⟩ := hsp
    have hs1 := hs rfl
    simp only at hf hr ho hs1
    subst hf
    cases d
    · simp only [Bool.false_eq_true, if_false]
      have a := ih v1
      have c := ih c1
      rw [hr] at a
      refine ⟨a.1.trans c.1.symm, a.2.1.trans c.2.1.symm, ?_⟩
      rw [a.2.2, c.2.2, ho, hs1]
      have : c1.remoteOut = [] ++ c1.remoteOut := rfl
      simp
    · simp only [if_true]
      exact ⟨trivial, hr, by rw [ho, hs1]⟩

theorem forBytes_probe (wr : Nat → Int) (bs : List Byte) : ∀ (w : World) (k : Nat),
    (forBytes wr w k bs).2 = (probe w.rstate bs).2 ∧
    (forBytes wr w k bs).1.rstate = (probe w.rstate bs).1.rstate ∧
    ∃ s, (forBytes wr w k bs).1.remoteOut = w.remoteOut ++ s ∧
      List.Sublist s (probe w.rstate bs).1.remoteOut ∧
      ((∀ j, j < bs.length → wr (k + j) = 1) → s = (probe w.rstate bs).1.remoteOut) := by
  induction bs with
  | nil =>
    intro w k
    exact ⟨rfl, rfl, [], by simp [forBytes], List.Sublist.refl _, fun _ => rfl⟩
  | cons b bs ih =>
    intro w k
    rw [forBytes, probe_cons]
    rcases h1 : stepByte w b (wr k) with ⟨w1, d⟩
    rcases h2 : stepByte { World.init with rstate := w.rstate } b 1 with ⟨c1, d1⟩
    have hsp := stepByte_probe w b (wr k)
    rw [h1, h2] at hsp
    obtain ⟨hf, hr, s1, ho, hsub, hs⟩ := hsp
    simp only at hf hr ho hsub hs
    subst hf
    cases d
    · simp only [Bool.false_eq_true, if_false]
      obtain ⟨a1, a2, s2, a3, a4, a5⟩ := ih w1 (k + 1)
      have c := scan_probe bs c1
      rw [hr] at a1 a2 a4 a5
      refine ⟨a1.trans c.1.symm, a2.trans c.2.1.symm, s1 ++ s2, ?_, ?_, fun hw => ?_⟩
      · rw [a3, ho]; simp
      · rw [c.2.2]
        exact List.Sublist.append hsub a4
      · rw [c.2.2, hs (by simpa using hw 0 (by simp)),
          a5 (fun j hj => by
            have := hw (j + 1) (by simpa using hj)
            rwa [show k + 1 + j = k + (j + 1) by omega])]
    · simp only [if_true]
      exact ⟨trivial, hr, s1, ho, hsub, fun hw => hs (by simpa using hw 0 (by simp))⟩

theorem probe_append (rs : Nat) (as bs : List Byte) :
    ((probe rs as).2 = true → probe rs (as ++ bs) = probe rs as) ∧
    ((probe rs as).2 = false →
      (probe rs (as ++ bs)).2 = (probe (probe rs as).1.rstate bs).2 ∧
      (probe rs (as ++ bs)).1.rstate = (probe (probe rs as).1.rstate bs).1.rstate ∧
      (probe rs (as ++ bs)).1.remoteOut =
        (probe rs as).1.remoteOut ++ (probe (probe rs as).1.rstate bs).1.remoteOut) := by
  have ha := scan_append as bs { World.init with rstate := rs }
  have hp := scan_probe bs (probe rs as).1
  unfold probe at ha hp ⊢
  refine ⟨fun h => ?_, fun h => ?_⟩
  · rw [ha, if_pos h]
  · rw [ha, if_neg (by rw [h]; simp)]
    exact hp

theorem detect_same (ok : Prop) (w : World) (x : Option Exit) (hx : x ≠ some .escape) :
    DetectRel ok w (w, x) :=
  ⟨[], [], by simp, by simp, List.Sublist.refl _, fun _ => rfl,
    ⟨fun h => by simp [probe_nil] at h, fun h => absurd h hx⟩, rfl⟩

theorem detect_mono (ok ok1 : Prop) (w : World) (p : World × Option Exit)
    (himp : ok1 → ok) (h : DetectRel ok w p) : DetectRel ok1 w p := by
  obtain ⟨bs, s, a, b, c, d, f, g⟩ := h
  exact ⟨bs, s, a, b, c, fun h1 => d (himp h1), f, g⟩

theorem detect_trans (ok1 ok2 : Prop) (w w1 : World) (p : World × Option Exit)
    (h1 : DetectRel ok1 w (w1, none)) (h2 : DetectRel ok2 w1 p) :
    DetectRel (ok1 ∧ ok2) w p := by
  obtain ⟨bs, s, a, b, c, d, f, g⟩ := h1
  obtain ⟨cs, t, a2, b2, c2, d2, f2, g2⟩ := h2
  simp only at a b g
  have hfl : (probe w.rstate bs).2 = false := by
    cases hq : (probe w.rstate bs).2 with
    | false => rfl
    | true => exact absurd (f.1 hq) (by simp)
  obtain ⟨e1, e2, e3⟩ := (probe_append w.rstate bs cs).2 hfl
  rw [← g] at e1 e2 e3
  refine ⟨bs ++ cs, s ++ t, by rw [a2, a]; simp, by rw [b2, b]; simp, ?_, fun h => ?_, ?_, ?_⟩
  · rw [e3]
    exact List.Sublist.append c c2
  · rw [e3, d h.1, d2 h.2]
  · rw [e1]
    exact f2
  · rw [e2]
    exact g2

theorem localBranch_detect (w : World) (e : Wake) (hwf : e.wf) :
    DetectRel e.remoteWritesOk w (localBranch w e) := by
  by_cases hp : e.revents0 &&& POLLIN = 0
  · rw [localBranch_idle w e hp]
    exact detect_same _ w none (by simp)
  · rcases rdRes_cases e.rdLocal with hr | hr | ⟨bs, hne, hr⟩
    · rw [localBranch_fail w e hp hr]
      exact detect_same _ w _ (by simp)
    · rw [localBranch_eof w e hp hr]
      exact detect_same _ w _ (by simp)
    · have hlen : bs.length ≤ BUFSZ := by
        have := hwf.1
        rwa [hr] at this
      rw [localBranch_data w e bs hp hr hne hlen]
      have hfr := forBytes_frame e.wrRemote bs { w with localIn := w.localIn ++ bs } 0
      obtain ⟨p1, p2, s, p3, p4, p5⟩ :=
        forBytes_probe e.wrRemote bs { w with localIn := w.localIn ++ bs } 0
      simp only at p1 p2 p3 p4 p5
      refine ⟨bs, s, hfr.2.2.1, p3, p4, fun hok => p5 (fun j hj => ?_), ?_, p2⟩
      · have := hok j (by rw [hr]; exact hj)
        simpa using this
      · simp only
        rw [← p1]
        cases forBytes e.wrRemote { w with localIn := w.localIn ++ bs } 0 bs with
        | mk w1 d => cases d <;> simp

theorem iteration_detect (lf : Bool) (w : World) (e : Wake) (hwf : e.wf) :
    DetectRel e.remoteWritesOk w (iteration lf w e) := by
  unfold iteration
  split_ifs
  · exact detect_same _ w _ (by simp)
  · exact ⟨[], [], by simp, by simp, List.Sublist.refl _, fun _ => rfl,
      ⟨fun h => by simp [probe_nil] at h, fun h => by simp at h⟩, rfl⟩
  · have hl := localBranch_detect w e hwf
    rcases hlb : localBranch w e with ⟨w1, x⟩
    rw [hlb] at hl
    cases x with
    | some x => exact hl
    | none =>
      simp only
      have hf := socketPart_frame lf w1 e
      have hn := socketPart_noescape lf w1 e
      obtain ⟨bs, s, a, b, c, d, f, g⟩ := hl
      simp only at a b f g
      refine ⟨bs, s, by rw [hf.2.2, a], by rw [hf.2.1, b], c, d, ⟨fun h => ?_, fun h => absurd h hn⟩,
        by rw [hf.1, g]⟩
      exact absurd (f.1 h) (by simp)

theorem relay_detect (lf : Bool) (ws : List Wake) : ∀ (w : World), (∀ e ∈ ws, e.wf) →
    DetectRel (∀ e ∈ ws, e.remoteWritesOk) w (relay lf w ws) := by
  induction ws with
  | nil => intro w _; exact detect_same _ w none (by simp)
  | cons e es ih =>
    intro w hwf
    have hi := iteration_detect lf w e (hwf e (by simp))
    rw [relay]
    rcases hit : iteration lf w e with ⟨w1, x⟩
    rw [hit] at hi
    cases x with
    | some x => exact detect_mono _ _ w _ (fun h => h e (by simp)) hi
    | none =>
      simp only
      have h2 := ih w1 (fun a ha => hwf a (by simp [ha]))
      exact detect_mono _ _ w _
        (fun h => ⟨h e (by simp), fun a ha => h a (by simp [ha])⟩)
        (detect_trans _ _ w w1 _ hi h2)

/-! ## The escape detector -/

theorem scan_ok (bs : List Byte) (w : World) (hT : Track w) :
    Track (scan w bs).1 ∧
    ((scan w bs).2 = false → (scan w bs).1.remoteOut = w.remoteOut ++ bs) ∧
    ((scan w bs).2 = true → ∃ pre rest t, bs = pre ++ DOT :: rest ∧
      (scan w bs).1.remoteOut = w.remoteOut ++ pre ∧
      (scan w bs).1.remoteOut = t ++ [CR, TILDE]) :=
  forBytes_ok (fun _ => 1) bs w 0 (fun _ _ => rfl) hT

/-- C8: for every state and every byte the body of the byte loop does what the
row of the transition table of the specification says: on the row that
terminates it jumps to `done` and writes nothing, on every other row it issues
the write of the byte to the remote output and moves to the state of the row. -/
theorem C8_step_matches_table (s : DetState) (b : Byte) (w : World) (ret : Int) :
    stepByte { w with rstate := s.code } b ret =
      match specTable s b with
      | none => ({ w with rstate := s.code }, true)
      | some s1 => ({ w with rstate := s1.code, remoteOut := w.remoteOut ++ sent b ret }, false) := by
  have n0 : RSTATE_CR ≠ RSTATE_BEGIN := by decide
  have n1 : RSTATE_TILDE ≠ RSTATE_BEGIN := by decide
  have n2 : RSTATE_TILDE ≠ RSTATE_CR := by decide
  cases s
  · by_cases hb : b = CR <;> simp [stepByte, specTable, DetState.code, hb]
  · by_cases hb : b = TILDE
    · simp [stepByte, specTable, DetState.code, hb, n0]
    · have c1 : CR ≠ TILDE := by decide
      by_cases hc : b = CR <;> simp [stepByte, specTable, DetState.code, hb, hc, n0, c1]
  · by_cases hb : b = DOT <;> simp [stepByte, specTable, DetState.code, hb, n1, n2]

/-- C8, the two scenarios: `CR ~ X` is forwarded whole, the detector is back in
`Begin` and the session goes on; `CR CR ~ .` terminates the session. -/
theorem C8_scenarios :
    stepByte { World.init with rstate := DetState.SawTilde.code } 88 1 =
      ({ World.init with rstate := DetState.Begin.code, remoteOut := [88] }, false) ∧
    relay false World.init (feed [[13, 126, 88]]) =
      ({ World.init with rstate := RSTATE_BEGIN, remoteOut := [13, 126, 88],
                         localIn := [13, 126, 88] }, none) ∧
    (relay false World.init (feed [[13, 13, 126, 46]])).2 = some .escape :=
  ⟨C8_step_matches_table .SawTilde 88 World.init 1, by decide, by decide⟩

/-- C1, at the input `CR ~ CR ~ .`: the stream holds `CR ~ .` with no byte in
between, and the detector does not trigger, whether the five bytes come in one
read or in two; all five bytes are forwarded and the session goes on. -/
theorem C1_missed_escape :
    [CR, TILDE, DOT] <:+: [13, 126, 13, 126, 46] ∧
    relay false World.init (feed [[13, 126, 13, 126, 46]]) =
      ({ World.init with rstate := RSTATE_BEGIN, remoteOut := [13, 126, 13, 126, 46],
                         localIn := [13, 126, 13, 126, 46] }, none) ∧
    (relay false World.init (feed [[13, 126], [13, 126, 46]])).2 = none :=
  ⟨⟨[13, 126], [], rfl⟩, by decide, by decide⟩

/-- The input `CR ~ CR ~ .` does not trigger the detector however it is cut
into reads. -/
theorem missed_escape_any_split (lf : Bool) (cs : List (List Byte)) (hcs : Chunks cs)
    (hj : cs.flatten = [13, 126, 13, 126, 46]) : (relay lf World.init (feed cs)).2 = none := by
  rw [(feed_scan lf cs World.init hcs).2.2.1, hj]
  decide

/-- The direction of C1 that holds: when the session is left by the escape, the
bytes read from local input hold `CR ~ .` with no byte in between. -/
theorem escape_only_after_sequence (lf : Bool) (ws : List Wake)
    (hwf : ∀ e ∈ ws, e.wf) (hok : ∀ e ∈ ws, e.remoteWritesOk)
    (h : (relay lf World.init ws).2 = some .escape) :
    [CR, TILDE, DOT] <:+: (relay lf World.init ws).1.localIn := by
  obtain ⟨pre, rest, t, a, b, c⟩ := (relay_rel lf ws World.init hwf hok track_init).2.1 h
  have hb : pre = t ++ [CR, TILDE] := by
    rw [← c, b]; simp [World.init]
  refine ⟨t, rest, ?_⟩
  rw [a, hb]
  simp [World.init]

/-- C2, as stated, fails: one read of local input delivers `A B`, the write
of `A` to the remote output returns `-1` and the write of `B` is accepted;
the escape does not trigger, and the remote output holds `B` alone, not the
whole input. -/
theorem C2_failed_write_drops_byte :
    (⟨1, POLLIN, 0, .data [65, 66], fun k => if k = 0 then -1 else 1, .data [], 0⟩ : Wake).wf ∧
    relay false World.init
        [⟨1, POLLIN, 0, .data [65, 66], fun k => if k = 0 then -1 else 1, .data [], 0⟩] =
      ({ World.init with remoteOut := [66], localIn := [65, 66] }, none) := by
  decide

/-- C2, amended. For a stream cut into chunks in any way, the remote side
idle and every write accepting its byte: the remote output holds the bytes
before the `.` that triggers termination (a `.` that follows `CR ~`), or the
whole stream when the escape does not trigger. For every run of the loop,
with the bytes read from local input so far: the same when every write to the
remote output accepts its byte; and whatever the writes return, the remote
output holds, in order, bytes of the input before the triggering `.` (of the
whole input when the escape does not trigger), the triggering `.` and what
follows it never being written. -/
theorem C2_remote_output (lf : Bool) (cs : List (List Byte)) (ws : List Wake)
    (hcs : Chunks cs) (hwf : ∀ e ∈ ws, e.wf) :
    (((relay lf World.init (feed cs)).2 = some .escape ∧
        ∃ rest, cs.flatten = (relay lf World.init (feed cs)).1.remoteOut ++ DOT :: rest ∧
          [CR, TILDE] <:+ (relay lf World.init (feed cs)).1.remoteOut) ∨
      ((relay lf World.init (feed cs)).2 = none ∧
        (relay lf World.init (feed cs)).1.remoteOut = cs.flatten)) ∧
    ((∀ e ∈ ws, e.remoteWritesOk) →
      ((relay lf World.init ws).2 = some .escape →
        ∃ rest, (relay lf World.init ws).1.localIn =
            (relay lf World.init ws).1.remoteOut ++ DOT :: rest ∧
          [CR, TILDE] <:+ (relay lf World.init ws).1.remoteOut) ∧
      ((relay lf World.init ws).2 ≠ some .escape →
        (relay lf World.init ws).1.remoteOut = (relay lf World.init ws).1.localIn)) ∧
    (∃ pre, List.Sublist (relay lf World.init ws).1.remoteOut pre ∧
      ((relay lf World.init ws).2 = some .escape →
        ∃ rest, (relay lf World.init ws).1.localIn = pre ++ DOT :: rest ∧ [CR, TILDE] <:+ pre) ∧
      ((relay lf World.init ws).2 ≠ some .escape → (relay lf World.init ws).1.localIn = pre)) := by
  refine ⟨?_, fun hok => ⟨fun h => ?_, fun h => ?_⟩, ?_⟩
  · have hf := feed_scan lf cs World.init hcs
    have ho := scan_ok cs.flatten World.init track_init
    rw [hf.2.1, hf.2.2.1]
    rcases hsc : scan World.init cs.flatten with ⟨w1, d⟩
    rw [hsc] at ho
    cases d
    · right
      refine ⟨by simp, ?_⟩
      have := ho.2.1 rfl
      simpa [World.init] using this
    · left
      obtain ⟨pre, rest, t, a, b, c⟩ := ho.2.2 rfl
      refine ⟨by simp, rest, ?_, t, c.symm⟩
      rw [a, b]
      simp [World.init]
  · obtain ⟨pre, rest, t, a, b, c⟩ := (relay_rel lf ws World.init hwf hok track_init).2.1 h
    refine ⟨rest, ?_, t, c.symm⟩
    rw [a, b]
    simp [World.init]
  · obtain ⟨bs, a, b⟩ := (relay_rel lf ws World.init hwf hok track_init).2.2 h
    rw [a, b]
    simp [World.init]
  · obtain ⟨bs, s, a, b, c, _, f, _⟩ := relay_detect lf ws World.init hwf
    have hp : probe World.init.rstate bs = scan World.init bs := rfl
    rw [hp] at c f
    have ho := scan_ok bs World.init track_init
    have a1 : (relay lf World.init ws).1.localIn = bs := by rw [a]; simp [World.init]
    have b1 : (relay lf World.init ws).1.remoteOut = s := by rw [b]; simp [World.init]
    refine ⟨(scan World.init bs).1.remoteOut, by rw [b1]; exact c, fun h => ?_, fun h => ?_⟩
    · obtain ⟨pre, rest, t, e1, e2, e3⟩ := ho.2.2 (f.2 h)
      have e4 : (scan World.init bs).1.remoteOut = pre := by rw [e2]; simp [World.init]
      refine ⟨rest, by rw [a1, e4]; exact e1, t, e3.symm⟩
    · have hfl : (scan World.init bs).2 = false := by
        cases hq : (scan World.init bs).2 with
        | false => rfl
        | true => exact absurd (f.1 hq) h
      rw [a1, ho.2.1 hfl]
      simp [World.init]

/-- C2, amended, the scenario `A B CR ~ . C`, read in two chunks: the four
bytes `A B CR ~` are forwarded and the session terminates; the same with
remote traffic in between. -/
theorem C2_scenario :
    relay true World.init (feed [[65, 66, 13], [126, 46, 67]]) =
      ({ World.init with rstate := RSTATE_TILDE, remoteOut := [65, 66, 13, 126],
                         localIn := [65, 66, 13, 126, 46, 67] }, some .escape) ∧
    (relay true World.init [localWake [65, 66, 13], remoteWake [1, 2], bothWake [126, 46, 67] [3]]).2
      = some .escape ∧
    (∃ rest, [65, 66, 13, 126, 46, 67] =
      (relay true World.init (feed [[65, 66, 13], [126, 46, 67]])).1.remoteOut ++ DOT :: rest) ∧
    (∃ rest,
      (relay true World.init
          [localWake [65, 66, 13], remoteWake [1, 2], bothWake [126, 46, 67] [3]]).1.localIn =
        (relay true World.init
          [localWake [65, 66, 13], remoteWake [1, 2], bothWake [126, 46, 67] [3]]).1.remoteOut
          ++ DOT :: rest ∧
      [CR, TILDE] <:+ (relay true World.init
          [localWake [65, 66, 13], remoteWake [1, 2], bothWake [126, 46, 67] [3]]).1.remoteOut) ∧
    (relay true World.init
        [localWake [65, 66, 13], remoteWake [1, 2], bothWake [126, 46, 67] [3]]).1.remoteOut
      = [65, 66, 13, 126] :=
  ⟨by decide, by decide,
    ((C2_remote_output true [[65, 66, 13], [126, 46, 67]]
        [localWake [65, 66, 13], remoteWake [1, 2], bothWake [126, 46, 67] [3]]
        (by decide) (by decide)).1.resolve_right (by decide)).2.imp
      (fun _ h => h.1),
    ((C2_remote_output true [[65, 66, 13], [126, 46, 67]]
        [localWake [65, 66, 13], remoteWake [1, 2], bothWake [126, 46, 67] [3]]
        (by decide) (by decide)).2.1 (by decide)).1 (by decide),
    by decide⟩

theorem probe_escape (rs : Nat) (tail : List Byte)
    (hs : rs = RSTATE_BEGIN ∨ rs = RSTATE_CR) :
    probe rs (CR :: TILDE :: DOT :: tail) =
      ({ World.init with rstate := RSTATE_TILDE, remoteOut := [CR, TILDE] }, true) := by
  have n0 : RSTATE_CR ≠ RSTATE_BEGIN := by decide
  have n1 : RSTATE_TILDE ≠ RSTATE_BEGIN := by decide
  have n2 : RSTATE_TILDE ≠ RSTATE_CR := by decide
  have c1 : CR ≠ TILDE := by decide
  rcases hs with h | h <;>
    simp [probe, scan_cons, stepByte, h, sent_one, n0, n1, n2, c1, World.init]

theorem remoteRel_same (ok : Prop) (lf : Bool) (w : World) (x : Option Exit)
    (hx : notice x = []) : RemoteRel ok lf w (w, x) :=
  ⟨[], [], by simp, by simp, by simp [hx], List.Sublist.refl _, fun _ => rfl⟩

theorem remoteRel_trans (ok1 ok2 : Prop) (lf : Bool) (w w1 : World) (p : World × Option Exit)
    (h1 : RemoteRel ok1 lf w (w1, none)) (h2 : RemoteRel ok2 lf w1 p) :
    RemoteRel (ok1 ∧ ok2) lf w p := by
  obtain ⟨bs, s, a, b, c, d, f⟩ := h1
  obtain ⟨cs, t, a2, b2, c2, d2, f2⟩ := h2
  simp only [notice, List.append_nil] at a b c
  refine ⟨bs ++ cs, s ++ t, by rw [a2, a]; simp, ?_, by rw [c2, c]; simp,
    List.Sublist.append d d2, fun h => by rw [f h.1, f2 h.2]⟩
  rw [b2, b]
  cases lf <;> simp

theorem remoteRel_mono (ok ok1 : Prop) (lf : Bool) (w : World) (p : World × Option Exit)
    (himp : ok1 → ok) (h : RemoteRel ok lf w p) : RemoteRel ok1 lf w p := by
  obtain ⟨bs, s, a, b, c, d, f⟩ := h
  exact ⟨bs, s, a, b, c, d, fun h1 => f (himp h1)⟩

theorem wr_ok (n : Nat) (h : n ≤ BUFSZ) :
    toSizeT (n : Int) = n ∧ toSizeT (n : Int) ≠ toSizeT (-1) := by
  have := bufsz_lt
  exact toSizeT_natCast n (by omega)

theorem remoteBranch_rel (lf : Bool) (w : World) (e : Wake) (hwf : e.wf) :
    RemoteRel e.localWriteOk lf w (remoteBranch lf w e) := by
  by_cases hp : e.revents2 &&& POLLIN = 0
  · rw [remoteBranch_idle lf w e hp]
    exact remoteRel_same _ lf w none rfl
  · rcases rdRes_cases e.rdRemote with hr | hr | ⟨bs, hne, hr⟩
    · rw [remoteBranch_fail lf w e hp hr]
      exact remoteRel_same _ lf w _ rfl
    · rw [remoteBranch_eof lf w e hp hr]
      exact remoteRel_same _ lf w _ rfl
    · have hlen : bs.length ≤ BUFSZ := by
        have := hwf.2.1
        rwa [hr] at this
      rw [remoteBranch_data lf w e bs hp hr hne hlen]
      have h1 := wr_ok bs.length hlen
      have hw : e.localWriteOk → e.wrLocal = (bs.length : Int) := by
        intro h
        unfold Wake.localWriteOk at h
        rwa [hr] at h
      by_cases hx : toSizeT e.wrLocal = toSizeT (-1)
      · rw [if_pos hx]
        refine ⟨bs, [], rfl, rfl, by simp [notice], List.nil_sublist _, fun h => ?_⟩
        rw [hw h] at hx
        exact absurd hx h1.2
      · rw [if_neg hx]
        refine ⟨bs, bs.take (toSizeT e.wrLocal), rfl, rfl, by simp [notice],
          List.take_sublist _ _, fun h => ?_⟩
        rw [hw h, h1.1, List.take_length]

theorem socketPart_rel (lf : Bool) (w : World) (e : Wake) (hwf : e.wf) :
    RemoteRel e.localWriteOk lf w (socketPart lf w e) := by
  unfold socketPart
  split_ifs
  · exact ⟨[], [], by simp, by simp, by simp [notice], List.Sublist.refl _, fun _ => rfl⟩
  · exact remoteBranch_rel lf w e hwf

theorem localBranch_notice (w : World) (e : Wake) : notice (localBranch w e).2 = [] := by
  simp only [localBranch]
  split_ifs
  · rfl
  · rfl
  · rcases forBytes e.wrRemote { w with localIn := w.localIn ++ e.rdLocal.buf } 0
      (e.rdLocal.buf.take (toSizeT e.rdLocal.ret)) with ⟨w1, d⟩
    cases d <;> rfl
  · rfl

theorem iteration_remoteRel (lf : Bool) (w : World) (e : Wake) (hwf : e.wf) :
    RemoteRel e.localWriteOk lf w (iteration lf w e) := by
  unfold iteration
  split_ifs
  · exact remoteRel_same _ lf w _ rfl
  · exact ⟨[], [], by simp, by simp, by simp [notice], List.Sublist.refl _, fun _ => rfl⟩
  · have hf := localBranch_frame w e
    have hn := localBranch_notice w e
    rcases hlb : localBranch w e with ⟨w1, x⟩
    rw [hlb] at hf hn
    simp only at hf hn
    cases x with
    | some x =>
      exact ⟨[], [], by simp [hf.2.2], by simp [hf.2.1], by simp [hf.1, hn],
        List.Sublist.refl _, fun _ => rfl⟩
    | none =>
      simp only
      obtain ⟨bs, s, a, b, c, d, f⟩ := socketPart_rel lf w1 e hwf
      exact ⟨bs, s, by rw [a, hf.2.2], by rw [b, hf.2.1], by rw [c, hf.1], d, f⟩

theorem relay_remoteRel (lf : Bool) (ws : List Wake) : ∀ (w : World),
    (∀ e ∈ ws, e.wf) → RemoteRel (∀ e ∈ ws, e.localWriteOk) lf w (relay lf w ws) := by
  induction ws with
  | nil => intro w _; exact remoteRel_same _ lf w none rfl
  | cons e es ih =>
    intro w hwf
    have hi := iteration_remoteRel lf w e (hwf e (by simp))
    rw [relay]
    rcases hit : iteration lf w e with ⟨w1, x⟩
    rw [hit] at hi
    cases x with
    | some x =>
      exact remoteRel_mono _ _ lf w _ (fun h => h e (by simp)) hi
    | none =>
      simp only
      have h2 := ih w1 (fun a ha => hwf a (by simp [ha]))
      exact remoteRel_mono _ _ lf w _
        (fun h => ⟨h e (by simp), fun a ha => h a (by simp [ha])⟩)
        (remoteRel_trans _ _ lf w w1 _ hi h2)

theorem iteration_remoteWake (lf : Bool) (w : World) (c : List Byte) (hne : c ≠ [])
    (hlen : c.length ≤ BUFSZ) :
    iteration lf w (remoteWake c) =
      ({ w with remoteIn := w.remoteIn ++ c, log := w.log ++ (if lf then c else []),
                localOut := w.localOut ++ c }, none) := by
  have h1 : (remoteWake c).pollRet ≠ -1 := by show (1 : Int) ≠ -1; decide
  have h2 : (remoteWake c).revents0 &&& POLLHUP = 0 := by show 0 &&& POLLHUP = 0; decide
  have h3 : (remoteWake c).revents2 &&& POLLHUP = 0 := by show POLLIN &&& POLLHUP = 0; decide
  have h4 : (remoteWake c).revents0 &&& POLLIN = 0 := by show 0 &&& POLLIN = 0; decide
  have h5 : (remoteWake c).revents2 &&& POLLIN ≠ 0 := by show POLLIN &&& POLLIN ≠ 0; decide
  have h6 := wr_ok c.length hlen
  unfold iteration
  simp only [h1, h2, if_false, ne_eq, not_true_eq_false]
  rw [localBranch_idle w _ h4]
  simp only [socketPart, h3, ne_eq, not_true_eq_false, if_false]
  rw [remoteBranch_data lf w _ c h5 rfl hne hlen]
  have : (remoteWake c).wrLocal = (c.length : Int) := rfl
  rw [this, if_neg h6.2, h6.1]
  simp

/-- Reading remote input chunk by chunk copies the concatenation of the
chunks to the log and to the local output, and the session goes on. -/
theorem remoteFeed_copy (lf : Bool) (rs : List (List Byte)) : ∀ (w : World), Chunks rs →
    relay lf w (remoteFeed rs) =
      ({ w with remoteIn := w.remoteIn ++ rs.flatten,
                log := w.log ++ (if lf then rs.flatten else []),
                localOut := w.localOut ++ rs.flatten }, none) := by
  induction rs with
  | nil => intro w _; simp [remoteFeed, relay]
  | cons c rs ih =>
    intro w hrs
    have hc := hrs c (by simp)
    have hrs1 : Chunks rs := fun a ha => hrs a (by simp [ha])
    simp only [remoteFeed, List.map_cons, List.flatten_cons]
    rw [relay, iteration_remoteWake lf w c hc.1 hc.2]
    simp only
    have := fun v => ih v hrs1
    simp only [remoteFeed] at this
    rw [this]
    cases lf <;> simp

theorem relay_cons_exit (lf : Bool) (w : World) (e : Wake) (es : List Wake)
    (h : (iteration lf w e).2 ≠ none) : relay lf w (e :: es) = iteration lf w e := by
  rw [relay]
  rcases hit : iteration lf w e with ⟨w1, x⟩
  rw [hit] at h
  cases x with
  | some x => rfl
  | none => exact absurd rfl h

/-- C7: an iteration in which local input reports a hangup, or is readable and
yields a read of zero bytes, leaves the loop with the success status; nothing
is read from remote input, nothing is added to the log, and the local output
receives no remote data (at most the notice of line 146). An iteration in
which remote input reports a hangup, or is readable and yields a read of zero
bytes, leaves the loop, whatever local input holds. The wakes that follow are
not looked at. -/
theorem C7_end_of_stream (lf : Bool) (w : World) (e : Wake) (es : List Wake) :
    (e.pollRet ≠ -1 →
      (e.revents0 &&& POLLHUP ≠ 0 ∨ (e.revents0 &&& POLLIN ≠ 0 ∧ e.rdLocal = .data [])) →
      ∃ x, (relay lf w (e :: es)).2 = some x ∧ x.status = EX_OK ∧
        (relay lf w (e :: es)).1.remoteIn = w.remoteIn ∧
        (relay lf w (e :: es)).1.log = w.log ∧
        ((relay lf w (e :: es)).1.localOut = w.localOut ∨
          (relay lf w (e :: es)).1.localOut = w.localOut ++ stdinHupMsg)) ∧
    ((e.revents2 &&& POLLHUP ≠ 0 ∨ (e.revents2 &&& POLLIN ≠ 0 ∧ e.rdRemote = .data [])) →
      ∃ x, (relay lf w (e :: es)).2 = some x) := by
  refine ⟨fun hp hl => ?_, fun hr => ?_⟩
  · by_cases hh : e.revents0 &&& POLLHUP ≠ 0
    · have e1 : iteration lf w e =
          ({ w with localOut := w.localOut ++ stdinHupMsg }, some .stdinHup) := by
        simp [iteration, hp, hh]
      rw [relay_cons_exit lf w e es (by rw [e1]; simp), e1]
      exact ⟨.stdinHup, rfl, rfl, rfl, rfl, Or.inr rfl⟩
    · rcases hl with hl | ⟨hin, hrd⟩
      · exact absurd hl hh
      · have e1 : iteration lf w e = (w, some .stdinEof) := by
          simp only [iteration, hp, hh, if_false]
          rw [localBranch_eof w e hin hrd]
        rw [relay_cons_exit lf w e es (by rw [e1]; simp), e1]
        exact ⟨.stdinEof, rfl, rfl, rfl, rfl, Or.inl rfl⟩
  · have key : (iteration lf w e).2 ≠ none := by
      unfold iteration
      split_ifs
      · simp
      · simp
      · rcases localBranch w e with ⟨w1, x⟩
        cases x with
        | some x => simp
        | none =>
          simp only [socketPart]
          split_ifs with h2
          · simp
          · rcases hr with hr | ⟨hin, hrd⟩
            · exact absurd hr h2
            · rw [remoteBranch_eof lf w1 e hin hrd]
              simp
    rw [relay_cons_exit lf w e es key]
    cases hx : (iteration lf w e).2 with
    | none => exact absurd hx key
    | some x => exact ⟨x, rfl⟩

/-- C7 at concrete iterations: local hangup with remote data waiting; a read of
zero bytes on local input with remote data waiting; remote hangup with local
input waiting. -/
theorem C7_end_of_stream_witness :
    (∃ x, (relay true World.init
            (⟨1, POLLHUP, POLLIN, .data [], fun _ => 1, .data [9, 9], 2⟩ :: [remoteWake [7]])).2
          = some x ∧ x.status = EX_OK ∧
        (relay true World.init
            (⟨1, POLLHUP, POLLIN, .data [], fun _ => 1, .data [9, 9], 2⟩ :: [remoteWake [7]])).1.remoteIn
          = World.init.remoteIn ∧
        (relay true World.init
            (⟨1, POLLHUP, POLLIN, .data [], fun _ => 1, .data [9, 9], 2⟩ :: [remoteWake [7]])).1.log
          = World.init.log ∧
        ((relay true World.init
            (⟨1, POLLHUP, POLLIN, .data [], fun _ => 1, .data [9, 9], 2⟩ :: [remoteWake [7]])).1.localOut
          = World.init.localOut ∨
         (relay true World.init
            (⟨1, POLLHUP, POLLIN, .data [], fun _ => 1, .data [9, 9], 2⟩ :: [remoteWake [7]])).1.localOut
          = World.init.localOut ++ stdinHupMsg)) ∧
    (relay true World.init [bothWake [] [9, 9], remoteWake [7]]) = (World.init, some .stdinEof) ∧
    (∃ x, (relay true World.init
            (⟨2, POLLIN, POLLHUP, .data [65], fun _ => 1, .data [], 0⟩ :: [localWake [66]])).2
          = some x) :=
  ⟨(C7_end_of_stream true World.init ⟨1, POLLHUP, POLLIN, .data [], fun _ => 1, .data [9, 9], 2⟩
      [remoteWake [7]]).1 (by decide) (Or.inl (by decide)),
    by decide,
    (C7_end_of_stream true World.init ⟨2, POLLIN, POLLHUP, .data [65], fun _ => 1, .data [], 0⟩
      [localWake [66]]).2 (Or.inl (by decide))⟩

/-! ## The terminal -/

/-- C5, as stated, fails: every call of the start-up succeeds, local input
hangs up, and the `tcsetattr` call of `restore_term` returns `-1`; the process
exits with the success status and the terminal keeps the raw attributes `8`
instead of the attributes `7` it had when `main` started. -/
theorem C5_restore_can_fail :
    main { okStartup with restoreRet := -1 } true 7 [eventWake POLLHUP 0] =
      ⟨some EX_OK, 8, 7, { World.init with localOut := stdinHupMsg }⟩ ∧
    (main { okStartup with restoreRet := -1 } true 7 [eventWake POLLHUP 0]).term ≠ 7 := by
  decide

/-- C5, amended: when `tcgetattr` and the `tcsetattr` that enters raw mode
have succeeded, then whatever way the process exits (name too long, `socket`,
`connect` or `dup` failing, a failure of `poll`, `read` or `write`, hangup,
end of input, escape), `oldterm` still holds at exit the attributes the
terminal had when `main` started; the terminal has these attributes again
when the `tcsetattr` call of `restore_term` succeeds, and is left with the raw
attributes when that call fails. -/
theorem C5_terminal_restored (su : Startup) (lf : Bool) (term0 : Termios) (ws : List Wake)
    (code : Nat) (h1 : su.tcgetattrRet ≠ -1) (h2 : su.tcsetattrRet ≠ -1)
    (hx : (main su lf term0 ws).status = some code) :
    (main su lf term0 ws).oldterm = term0 ∧
    (su.restoreRet ≠ -1 → (main su lf term0 ws).term = term0) ∧
    (su.restoreRet = -1 → (main su lf term0 ws).term = su.cfmakeraw term0) := by
  unfold main at hx ⊢
  simp only [h1, h2, if_false] at hx ⊢
  split_ifs
  · exact ⟨rfl, fun h3 => by simp [exitWith, restore_term, h3],
      fun h3 => by simp [exitWith, restore_term, h3]⟩
  · exact ⟨rfl, fun h3 => by simp [exitWith, restore_term, h3],
      fun h3 => by simp [exitWith, restore_term, h3]⟩
  · exact ⟨rfl, fun h3 => by simp [exitWith, restore_term, h3],
      fun h3 => by simp [exitWith, restore_term, h3]⟩
  · exact ⟨rfl, fun h3 => by simp [exitWith, restore_term, h3],
      fun h3 => by simp [exitWith, restore_term, h3]⟩
  · rcases hr : relay lf World.init ws with ⟨w, x⟩
    cases x with
    | none =>
      rw [hr] at hx
      split_ifs at hx
    | some x =>
      exact ⟨rfl, fun h3 => by simp [exitWith, restore_term, h3],
        fun h3 => by simp [exitWith, restore_term, h3]⟩

/-- C5, amended, on one exit path of each kind: the terminal starts with
attributes `7`, is raw (`8`) while the session runs, and is back to `7` at
exit when the restoring call succeeds. -/
theorem C5_terminal_restored_witness :
    ((main okStartup true 7 (feed [[13, 126, 46]])).oldterm = 7 ∧
      (main okStartup true 7 (feed [[13, 126, 46]])).term = 7) ∧
    ((main { okStartup with restoreRet := -1 } true 7 (feed [[13, 126, 46]])).oldterm = 7 ∧
      (main { okStartup with restoreRet := -1 } true 7 (feed [[13, 126, 46]])).term
        = okStartup.cfmakeraw 7) ∧
    main okStartup true 7 (feed [[13, 126, 46]]) =
      ⟨some EX_OK, 7, 7,
        { World.init with rstate := RSTATE_TILDE, remoteOut := [13, 126],
                          localIn := [13, 126, 46] }⟩ ∧
    (main okStartup true 7 (feed [[65]])) =
      ⟨none, 8, 7, { World.init with remoteOut := [65], localIn := [65] }⟩ ∧
    (main okStartup true 7 [⟨-1, 0, 0, .fail, fun _ => 1, .fail, 0⟩]) =
      ⟨some EX_OSERR, 7, 7, World.init⟩ ∧
    (main okStartup true 7 [⟨1, POLLIN, 0, .fail, fun _ => 1, .fail, 0⟩]) =
      ⟨some EX_IOERR, 7, 7, World.init⟩ ∧
    (main { okStartup with connectRet := -1 } true 7 []) = ⟨some EX_IOERR, 7, 7, World.init⟩ ∧
    (main okStartup true 7 [eventWake 0 POLLHUP]).term = 7 :=
  ⟨⟨(C5_terminal_restored okStartup true 7 (feed [[13, 126, 46]]) EX_OK
        (by decide) (by decide) (by decide)).1,
      (C5_terminal_restored okStartup true 7 (feed [[13, 126, 46]]) EX_OK
        (by decide) (by decide) (by decide)).2.1 (by decide)⟩,
    ⟨(C5_terminal_restored { okStartup with restoreRet := -1 } true 7 (feed [[13, 126, 46]]) EX_OK
        (by decide) (by decide) (by decide)).1,
      (C5_terminal_restored { okStartup with restoreRet := -1 } true 7 (feed [[13, 126, 46]]) EX_OK
        (by decide) (by decide) (by decide)).2.2 (by decide)⟩,
    by decide, by decide, by decide, by decide, by decide, by decide⟩

/-! ## What the detector depends on -/

theorem stepByte_sim (w v : World) (b : Byte) (ret ret1 : Int) (h : w.rstate = v.rstate) :
    (stepByte w b ret).1.rstate = (stepByte v b ret1).1.rstate ∧
    (stepByte w b ret).2 = (stepByte v b ret1).2 := by
  simp only [stepByte, h]
  split_ifs <;> simp [h]

theorem forBytes_sim (wr wr1 : Nat → Int) (bs : List Byte) : ∀ (w v : World) (k k1 : Nat),
    w.rstate = v.rstate →
    (forBytes wr w k bs).1.rstate = (forBytes wr1 v k1 bs).1.rstate ∧
    (forBytes wr w k bs).2 = (forBytes wr1 v k1 bs).2 := by
  induction bs with
  | nil => intro w v k k1 h; simp [forBytes, h]
  | cons b bs ih =>
    intro w v k k1 h
    have hs := stepByte_sim w v b (wr k) (wr1 k1) h
    rw [forBytes, forBytes]
    rcases h1 : stepByte w b (wr k) with ⟨w1, d⟩
    rcases h2 : stepByte v b (wr1 k1) with ⟨v1, d1⟩
    rw [h1, h2] at hs
    simp only at hs
    obtain ⟨hr, hd⟩ := hs
    subst hd
    cases d
    · exact ih w1 v1 (k + 1) (k1 + 1) hr
    · exact ⟨hr, rfl⟩

theorem localBranch_sim (w v : World) (e e1 : Wake) (h : w.rstate = v.rstate)
    (h0 : e.revents0 = e1.revents0) (hr : e.rdLocal = e1.rdLocal) :
    (localBranch w e).1.rstate = (localBranch v e1).1.rstate ∧
    (localBranch w e).2 = (localBranch v e1).2 := by
  simp only [localBranch, ← h0, ← hr]
  split_ifs
  · exact ⟨h, rfl⟩
  · exact ⟨h, rfl⟩
  · have hs := forBytes_sim e.wrRemote e1.wrRemote (e.rdLocal.buf.take (toSizeT e.rdLocal.ret))
      { w with localIn := w.localIn ++ e.rdLocal.buf }
      { v with localIn := v.localIn ++ e.rdLocal.buf } 0 0 h
    rcases h1 : forBytes e.wrRemote { w with localIn := w.localIn ++ e.rdLocal.buf } 0
      (e.rdLocal.buf.take (toSizeT e.rdLocal.ret)) with ⟨w1, d⟩
    rcases h2 : forBytes e1.wrRemote { v with localIn := v.localIn ++ e.rdLocal.buf } 0
      (e.rdLocal.buf.take (toSizeT e.rdLocal.ret)) with ⟨v1, d1⟩
    rw [h1, h2] at hs
    simp only at hs
    obtain ⟨hr1, hd⟩ := hs
    subst hd
    cases d <;> exact ⟨hr1, rfl⟩
  · exact ⟨h, rfl⟩

theorem remoteBranch_exit_indep (lf lf1 : Bool) (w v : World) (e : Wake) :
    (remoteBranch lf w e).2 = (remoteBranch lf1 v e).2 := by
  simp only [remoteBranch]
  split_ifs <;> rfl

theorem wr_fail_iff (x : Int) (n : Nat) (h1 : -1 ≤ x) (h2 : x ≤ (n : Int)) (hn : n ≤ BUFSZ) :
    toSizeT x = toSizeT (-1) ↔ x = -1 := by
  constructor
  · intro h
    rw [toSizeT_neg_one] at h
    unfold toSizeT SIZE_MOD at h
    unfold BUFSZ at hn
    omega
  · intro h
    rw [h]

theorem rdRes_data_of (r : RdRes) (h1 : r ≠ .fail) : r = .data r.buf := by
  cases r with
  | fail => exact absurd rfl h1
  | data bs => rfl

theorem remoteBranch_kind (lf : Bool) (w : World) (e e1 : Wake) (hwf : e.wf) (hwf1 : e1.wf)
    (hs : SameExceptRemoteBytes e e1) :
    (remoteBranch lf w e).2 = (remoteBranch lf w e1).2 := by
  obtain ⟨_, _, h2, _, hfail, hnil, hwr⟩ := hs
  by_cases hp : e.revents2 &&& POLLIN = 0
  · rw [remoteBranch_idle lf w e hp, remoteBranch_idle lf w e1 (by rw [← h2]; exact hp)]
  · have hp1 : e1.revents2 &&& POLLIN ≠ 0 := by rw [← h2]; exact hp
    by_cases hf : e.rdRemote = .fail
    · rw [remoteBranch_fail lf w e hp hf, remoteBranch_fail lf w e1 hp1 (hfail.1 hf)]
    · have hf1 : e1.rdRemote ≠ .fail := fun h => hf (hfail.2 h)
      have hd := rdRes_data_of e.rdRemote hf
      have hd1 := rdRes_data_of e1.rdRemote hf1
      by_cases hn : e.rdRemote.buf = []
      · rw [hn] at hd
        have hn1 := hnil.1 hn
        rw [hn1] at hd1
        rw [remoteBranch_eof lf w e hp hd, remoteBranch_eof lf w e1 hp1 hd1]
      · have hn1 : e1.rdRemote.buf ≠ [] := fun h => hn (hnil.2 h)
        rw [remoteBranch_data lf w e _ hp hd hn hwf.2.1,
          remoteBranch_data lf w e1 _ hp1 hd1 hn1 hwf1.2.1]
        have a := wr_fail_iff e.wrLocal _ hwf.2.2.1.1 hwf.2.2.1.2 hwf.2.1
        have a1 := wr_fail_iff e1.wrLocal _ hwf1.2.2.1.1 hwf1.2.2.1.2 hwf1.2.1
        by_cases hx : e.wrLocal = -1
        · rw [if_pos (a.2 hx), if_pos (a1.2 (hwr.1 hx))]
        · rw [if_neg (fun h => hx (a.1 h)), if_neg (fun h => hx (hwr.2 (a1.1 h)))]

theorem socketPart_sim (lf : Bool) (w v : World) (e e1 : Wake) (hwf : e.wf) (hwf1 : e1.wf)
    (hs : SameExceptRemoteBytes e e1) :
    (socketPart lf w e).2 = (socketPart lf v e1).2 := by
  have h2 := hs.2.2.1
  simp only [socketPart, ← h2]
  split_ifs
  · rfl
  · rw [remoteBranch_exit_indep lf lf w v e]
    exact remoteBranch_kind lf v e e1 hwf hwf1 hs

theorem iteration_sim (lf : Bool) (w v : World) (e e1 : Wake) (h : w.rstate = v.rstate)
    (hwf : e.wf) (hwf1 : e1.wf) (hs : SameExceptRemoteBytes e e1) :
    (iteration lf w e).1.rstate = (iteration lf v e1).1.rstate ∧
    (iteration lf w e).2 = (iteration lf v e1).2 := by
  have hl := localBranch_sim w v e e1 h hs.2.1 hs.2.2.2.1
  simp only [iteration, ← hs.1, ← hs.2.1]
  split_ifs
  · exact ⟨h, rfl⟩
  · exact ⟨h, rfl⟩
  · rcases h1 : localBranch w e with ⟨w1, x⟩
    rcases h2 : localBranch v e1 with ⟨v1, x1⟩
    rw [h1, h2] at hl
    simp only at hl
    obtain ⟨hr, hx⟩ := hl
    subst hx
    cases x with
    | some x => exact ⟨hr, rfl⟩
    | none =>
      simp only
      refine ⟨?_, socketPart_sim lf w1 v1 e e1 hwf hwf1 hs⟩
      rw [(socketPart_frame lf w1 e).1, (socketPart_frame lf v1 e1).1]
      exact hr

theorem relay_sim (lf : Bool) (ws ws1 : List Wake) (hs : List.Forall₂ SameExceptRemoteBytes ws ws1) :
    ∀ (w v : World), w.rstate = v.rstate → (∀ e ∈ ws, e.wf) → (∀ e ∈ ws1, e.wf) →
    (relay lf w ws).1.rstate = (relay lf v ws1).1.rstate ∧
    (relay lf w ws).2 = (relay lf v ws1).2 := by
  induction hs with
  | nil => intro w v h _ _; exact ⟨h, rfl⟩
  | @cons e e1 es es1 he _ ih =>
    intro w v h hwf hwf1
    have hi := iteration_sim lf w v e e1 h (hwf e (by simp)) (hwf1 e1 (by simp)) he
    rw [relay, relay]
    rcases h1 : iteration lf w e with ⟨w1, x⟩
    rcases h2 : iteration lf v e1 with ⟨v1, x1⟩
    rw [h1, h2] at hi
    simp only at hi
    obtain ⟨hr, hx⟩ := hi
    subst hx
    cases x with
    | some x => exact ⟨hr, rfl⟩
    | none =>
      exact ih w1 v1 hr (fun a ha => hwf a (by simp [ha])) (fun a ha => hwf1 a (by simp [ha]))

/-- C9: the remote branch of an iteration, with or without the hangup test
before it, leaves `rstate` as it was, whatever the state and the environment;
and two runs that differ only in the bytes delivered by remote input (and in
the log being there or not) end with the same `rstate` and leave the loop the
same way, in particular both by the escape or neither. -/
theorem C9_remote_input_frame (lf : Bool) (u w v : World) (e : Wake) (ws ws1 : List Wake)
    (hwv : w.rstate = v.rstate) (hwf : ∀ a ∈ ws, a.wf) (hwf1 : ∀ a ∈ ws1, a.wf)
    (hs : List.Forall₂ SameExceptRemoteBytes ws ws1) :
    (remoteBranch lf u e).1.rstate = u.rstate ∧ (socketPart lf u e).1.rstate = u.rstate ∧
    (relay lf w ws).1.rstate = (relay lf v ws1).1.rstate ∧
    (relay lf w ws).2 = (relay lf v ws1).2 :=
  ⟨(remoteBranch_frame lf u e).1, (socketPart_frame lf u e).1, relay_sim lf ws ws1 hs w v hwv hwf hwf1⟩

/-- C9 at two runs with the same keystrokes `CR`, `~`, `.` and different
remote traffic: both are left by the escape. -/
theorem C9_remote_input_frame_witness :
    ((remoteBranch true { World.init with rstate := RSTATE_TILDE } (remoteWake [13, 126, 46])).1.rstate
        = RSTATE_TILDE ∧
      (socketPart true { World.init with rstate := RSTATE_TILDE } (remoteWake [13, 126, 46])).1.rstate
        = RSTATE_TILDE ∧
      (relay true World.init [bothWake [13] [1, 2], remoteWake [5], localWake [126, 46]]).1.rstate =
        (relay true World.init [bothWake [13] [9], remoteWake [46, 46, 46], localWake [126, 46]]).1.rstate ∧
      (relay true World.init [bothWake [13] [1, 2], remoteWake [5], localWake [126, 46]]).2 =
        (relay true World.init [bothWake [13] [9], remoteWake [46, 46, 46], localWake [126, 46]]).2) ∧
    (relay true World.init [bothWake [13] [1, 2], remoteWake [5], localWake [126, 46]]).2
      = some .escape :=
  ⟨C9_remote_input_frame true { World.init with rstate := RSTATE_TILDE } World.init World.init
      (remoteWake [13, 126, 46])
      [bothWake [13] [1, 2], remoteWake [5], localWake [126, 46]]
      [bothWake [13] [9], remoteWake [46, 46, 46], localWake [126, 46]]
      rfl (by decide) (by decide)
      (List.Forall₂.cons (by decide) (List.Forall₂.cons (by decide)
        (List.Forall₂.cons (by decide) List.Forall₂.nil))),
    by decide⟩

/-! ## Failures of the input and output operations -/

theorem socketPart_exit_indep (lf : Bool) (w v : World) (e : Wake) :
    (socketPart lf w e).2 = (socketPart lf v e).2 := by
  simp only [socketPart]
  split_ifs
  · rfl
  · exact remoteBranch_exit_indep lf lf w v e

theorem iteration_wrRemote (lf : Bool) (w : World) (e : Wake) (f : Nat → Int) :
    (iteration lf w { e with wrRemote := f }).2 = (iteration lf w e).2 ∧
    (iteration lf w { e with wrRemote := f }).1.rstate = (iteration lf w e).1.rstate := by
  have hl := localBranch_sim w w { e with wrRemote := f } e rfl rfl rfl
  simp only [iteration]
  split_ifs
  · exact ⟨rfl, rfl⟩
  · exact ⟨rfl, rfl⟩
  · rcases h1 : localBranch w { e with wrRemote := f } with ⟨w1, x⟩
    rcases h2 : localBranch w e with ⟨v1, x1⟩
    rw [h1, h2] at hl
    simp only at hl
    obtain ⟨hr, hx⟩ := hl
    subst hx
    cases x with
    | some x => exact ⟨rfl, hr⟩
    | none =>
      simp only
      have e0 : socketPart lf w1 { e with wrRemote := f } = socketPart lf w1 e := rfl
      rw [e0]
      refine ⟨socketPart_exit_indep lf w1 v1 e, ?_⟩
      rw [(socketPart_frame lf w1 e).1, (socketPart_frame lf v1 e).1]
      exact hr

/-- C6, as stated, fails for the write to the remote output: the write of the
byte `A` returns `-1`; the loop does not stop, the next wake is served and its
byte `B` forwarded, and the process has not exited. -/
theorem C6_remote_write_failure_ignored :
    relay false World.init [⟨1, POLLIN, 0, .data [65], fun _ => -1, .data [], 0⟩, localWake [66]] =
      ({ World.init with remoteOut := [66], localIn := [65, 66] }, none) := by
  decide

/-- C6, amended: in an iteration whose `poll` succeeded and saw no hangup of
local input, a failing read of local input, a failing read of remote input and
a failing write to the local output each leave the loop through `err` with
the status `EX_IOERR`, which is not the success status, and the wakes that
follow are not served; the values returned by the writes to the remote output
change neither the way the iteration ends nor `rstate`. -/
theorem C6_io_failures (lf : Bool) (w : World) (e : Wake) (es : List Wake) (f : Nat → Int)
    (hp : e.pollRet ≠ -1) (hh : e.revents0 &&& POLLHUP = 0) :
    (e.revents0 &&& POLLIN ≠ 0 → e.rdLocal = .fail →
      relay lf w (e :: es) = (w, some (.err EX_IOERR))) ∧
    ((localBranch w e).2 = none → e.revents2 &&& POLLHUP = 0 → e.revents2 &&& POLLIN ≠ 0 →
      e.rdRemote = .fail → (relay lf w (e :: es)).2 = some (.err EX_IOERR)) ∧
    ((localBranch w e).2 = none → e.revents2 &&& POLLHUP = 0 → e.revents2 &&& POLLIN ≠ 0 →
      e.rdRemote.buf ≠ [] → e.rdRemote.buf.length ≤ BUFSZ → e.wrLocal = -1 →
      (relay lf w (e :: es)).2 = some (.err EX_IOERR)) ∧
    (Exit.err EX_IOERR).status ≠ EX_OK ∧
    (iteration lf w { e with wrRemote := f }).2 = (iteration lf w e).2 ∧
    (iteration lf w { e with wrRemote := f }).1.rstate = (iteration lf w e).1.rstate := by
  have hit : iteration lf w e =
      match localBranch w e with
      | (w1, some x) => (w1, some x)
      | (w1, none) => socketPart lf w1 e := by
    simp [iteration, hp, hh]
  refine ⟨fun hi hr => ?_, fun hl h2 hi hr => ?_, fun hl h2 hi hne hlen hwr => ?_, by decide,
    iteration_wrRemote lf w e f⟩
  · have e1 : iteration lf w e = (w, some (.err EX_IOERR)) := by
      rw [hit, localBranch_fail w e hi hr]
    rw [relay_cons_exit lf w e es (by rw [e1]; simp), e1]
  · have e1 : (iteration lf w e).2 = some (.err EX_IOERR) := by
      rw [hit]
      rcases hlb : localBranch w e with ⟨w1, x⟩
      rw [hlb] at hl
      simp only at hl
      subst hl
      simp only [socketPart, h2, ne_eq, not_true_eq_false, if_false]
      rw [remoteBranch_fail lf w1 e hi hr]
    rw [relay_cons_exit lf w e es (by rw [e1]; simp), e1]
  · have e1 : (iteration lf w e).2 = some (.err EX_IOERR) := by
      rw [hit]
      rcases hlb : localBranch w e with ⟨w1, x⟩
      rw [hlb] at hl
      simp only at hl
      subst hl
      simp only [socketPart, h2, ne_eq, not_true_eq_false, if_false]
      have hd : e.rdRemote = .data e.rdRemote.buf :=
        rdRes_data_of e.rdRemote (fun h => hne (by rw [h]; rfl))
      rw [remoteBranch_data lf w1 e _ hi hd hne hlen, hwr, if_pos rfl]
    rw [relay_cons_exit lf w e es (by rw [e1]; simp), e1]

/-- C6, amended, at one failure of each kind. -/
theorem C6_io_failures_witness :
    relay true World.init (⟨1, POLLIN, POLLIN, .fail, fun _ => 1, .data [7], 1⟩ :: [localWake [66]])
      = (World.init, some (.err EX_IOERR)) ∧
    (relay true World.init
        (⟨1, POLLIN, POLLIN, .data [65], fun _ => 1, .fail, 0⟩ :: [localWake [66]])).2
      = some (.err EX_IOERR) ∧
    (relay true World.init
        (⟨1, 0, POLLIN, .data [], fun _ => 1, .data [7, 8], -1⟩ :: [localWake [66]])).2
      = some (.err EX_IOERR) ∧
    (main okStartup true 7
        (⟨1, 0, POLLIN, .data [], fun _ => 1, .data [7, 8], -1⟩ :: [localWake [66]])).status
      = some 74 :=
  ⟨(C6_io_failures true World.init ⟨1, POLLIN, POLLIN, .fail, fun _ => 1, .data [7], 1⟩
      [localWake [66]] (fun _ => 0) (by decide) (by decide)).1 (by decide) rfl,
    (C6_io_failures true World.init ⟨1, POLLIN, POLLIN, .data [65], fun _ => 1, .fail, 0⟩
      [localWake [66]] (fun _ => 0) (by decide) (by decide)).2.1
      (by decide) (by decide) (by decide) rfl,
    (C6_io_failures true World.init ⟨1, 0, POLLIN, .data [], fun _ => 1, .data [7, 8], -1⟩
      [localWake [66]] (fun _ => 0) (by decide) (by decide)).2.2.1
      (by decide) (by decide) (by decide) (by decide) (by decide) rfl,
    by decide⟩

/-! ## Order of the two branches -/

/-- C10, as stated, fails: local input and remote input are both readable in
the same wake; the iteration forwards the local byte and also reads the remote
byte, logs it and writes it to the local output. -/
theorem C10_both_branches_run :
    iteration true World.init (bothWake [65] [66]) =
      ({ World.init with remoteOut := [65], localIn := [65], remoteIn := [66], log := [66],
                         localOut := [66] }, none) := by
  decide

/-- C10, amended: when both inputs are readable in the same wake (no hangup),
the iteration serves local input first; if the escape triggers there the loop
is left and remote input is not read; otherwise the same iteration goes on to
read the remote chunk and logs it. -/
theorem C10_local_then_remote (lf : Bool) (w : World) (e : Wake) (ls rs : List Byte)
    (hp : e.pollRet ≠ -1) (hh0 : e.revents0 &&& POLLHUP = 0) (hh2 : e.revents2 &&& POLLHUP = 0)
    (hi0 : e.revents0 &&& POLLIN ≠ 0) (hi2 : e.revents2 &&& POLLIN ≠ 0)
    (hl : e.rdLocal = .data ls) (hr : e.rdRemote = .data rs)
    (hls : ls ≠ [] ∧ ls.length ≤ BUFSZ) (hrs : rs ≠ [] ∧ rs.length ≤ BUFSZ) :
    ((localBranch w e).2 = none →
      (iteration lf w e).1.localIn = w.localIn ++ ls ∧
      (iteration lf w e).1.remoteIn = w.remoteIn ++ rs ∧
      (iteration lf w e).1.log = w.log ++ (if lf then rs else [])) ∧
    ((localBranch w e).2 ≠ none →
      (iteration lf w e).2 = some .escape ∧
      (iteration lf w e).1.localIn = w.localIn ++ ls ∧
      (iteration lf w e).1.remoteIn = w.remoteIn ∧ (iteration lf w e).1.log = w.log ∧
      (iteration lf w e).1.localOut = w.localOut) := by
  have hit : iteration lf w e =
      match localBranch w e with
      | (w1, some x) => (w1, some x)
      | (w1, none) => socketPart lf w1 e := by
    simp [iteration, hp, hh0]
  have hfr := forBytes_frame e.wrRemote ls { w with localIn := w.localIn ++ ls } 0
  have hlb := localBranch_data w e ls hi0 hl hls.1 hls.2
  rw [hit, hlb]
  rcases hfb : forBytes e.wrRemote { w with localIn := w.localIn ++ ls } 0 ls with ⟨w1, d⟩
  rw [hfb] at hfr
  simp only at hfr
  cases d
  · refine ⟨fun _ => ?_, fun h => by simp at h⟩
    simp only [Bool.false_eq_true, if_false, socketPart, hh2, ne_eq, not_true_eq_false]
    rw [remoteBranch_data lf w1 e rs hi2 hr hrs.1 hrs.2]
    split_ifs <;> simp [hfr]
  · refine ⟨fun h => by simp at h, fun _ => ?_⟩
    simp [hfr]

/-- C10, amended, at a wake in which both inputs are readable. -/
theorem C10_local_then_remote_witness :
    ((iteration true World.init (bothWake [65] [66])).1.localIn = World.init.localIn ++ [65] ∧
      (iteration true World.init (bothWake [65] [66])).1.remoteIn = World.init.remoteIn ++ [66] ∧
      (iteration true World.init (bothWake [65] [66])).1.log
        = World.init.log ++ (if true then [66] else [])) ∧
    iteration true { World.init with rstate := RSTATE_TILDE } (bothWake [46] [66]) =
      ({ World.init with rstate := RSTATE_TILDE, localIn := [46] }, some .escape) :=
  ⟨(C10_local_then_remote true World.init (bothWake [65] [66]) [65] [66] (by decide) (by decide)
      (by decide) (by decide) (by decide) rfl rfl (by decide) (by decide)).1 (by decide),
    by decide⟩

end Cus
